import Mathlib

/-!
# Verification of the subdivision-surface / GPU-buffer core

Shallow embedding of the index arithmetic, weight-table computation,
materialization layout, UV-seam rule, and GPU buffer pool of the
subdivision core (`subsurf_ccg.c` and `GPU_buffers.h`), together with
proofs and refutations of the specified properties.

Machine `int` / `size_t` values are modelled as `Int` / `Nat`; none of the
modelled computations overflow in the scenarios considered.
-/

/-! ## GPU buffer pool (`GPU_buffers.h`)

A `GPUBuffer` is a device- or host-resident allocation tagged with its byte
size and its allocation kind (`use_vbo`).  The pool keeps recently freed
buffers for reuse.  `buffers` models the `pool->buffers` array restricted to
its `totbuf` live entries (index 0 = front = most recently freed), so
`buffers.length` is `pool->totbuf`; `maxsize` is the allocated capacity of
the array. -/

structure GPUBuffer where
  size : Nat
  use_vbo : Bool
deriving DecidableEq

structure GPUBufferPool where
  buffers : List GPUBuffer
  maxsize : Nat
deriving DecidableEq

def MAX_FREE_GPU_BUFFERS : Nat := 8

/-- `gpu_buffer_pool_remove_index`: shifts the entries after `index` down by
one, dropping the entry at `index` (no effect for an out-of-range index). -/
def gpu_buffer_pool_remove_index (buffers : List GPUBuffer) (index : Nat) :
    List GPUBuffer :=
  buffers.eraseIdx index

/-- `gpu_buffer_pool_delete_last`: removes and destroys the last pool entry.
Returns the remaining entries and the destroyed buffer (`none` when the pool
is empty). -/
def gpu_buffer_pool_delete_last (l : List GPUBuffer) :
    List GPUBuffer × Option GPUBuffer :=
  match l.getLast? with
  | none => (l, none)
  | some b => (l.dropLast, some b)

/-- The trimming loop of `gpu_buffer_free_intern` in the main thread:
`while (pool->totbuf >= MAX_FREE_GPU_BUFFERS) gpu_buffer_pool_delete_last(pool);`
Returns the kept entries and the destroyed entries. -/
def pool_trim_loop (l : List GPUBuffer) : List GPUBuffer × List GPUBuffer :=
  if h : MAX_FREE_GPU_BUFFERS ≤ l.length then
    let r := pool_trim_loop l.dropLast
    (r.1, r.2 ++ l.getLast?.toList)
  else
    (l, [])
termination_by l.length
decreasing_by
  unfold MAX_FREE_GPU_BUFFERS at h
  simp only [List.length_dropLast]
  omega

/-- `gpu_buffer_free_intern`: releases a buffer back to the pool.  In the main
thread the pool is first trimmed down below `MAX_FREE_GPU_BUFFERS`; outside
the main thread nothing is destroyed and the capacity is grown when the array
is full.  In both cases the buffer is inserted at the front (the entries are
shifted up by one).  Returns the new pool and the list of destroyed
buffers. -/
def gpu_buffer_free_intern (buffer : GPUBuffer) (pool : GPUBufferPool)
    (is_main_thread : Bool) : GPUBufferPool × List GPUBuffer :=
  if is_main_thread then
    let r := pool_trim_loop pool.buffers
    (⟨buffer :: r.1, pool.maxsize⟩, r.2)
  else
    let maxsize :=
      if pool.maxsize = pool.buffers.length then
        pool.maxsize + MAX_FREE_GPU_BUFFERS
      else
        pool.maxsize
    (⟨buffer :: pool.buffers, maxsize⟩, [])

/-- Result of `gpu_buffer_alloc_intern`: the null buffer, a buffer taken from
the pool, or a freshly created buffer. -/
inductive AllocResult where
  | null : AllocResult
  | pooled : GPUBuffer → AllocResult
  | fresh : GPUBuffer → AllocResult
deriving DecidableEq

def AllocResult.isPooled : AllocResult → Bool
  | AllocResult.pooled _ => true
  | _ => false

/-- The best-fit scanning loop of `gpu_buffer_alloc_intern`.  `i` is the index
of the head of `l` within the full buffer array; `best` carries the current
`bestfit` index together with the buffer stored there (the C code reads
`pool->buffers[bestfit]->size` back from the array; carrying the buffer is
equivalent).  An entry whose `use_vbo` does not match is skipped; an exact
size match breaks the loop; an entry with `bufsize > size && size > bufsize/2`
replaces `bestfit` when it is strictly smaller than the current best. -/
def gpu_buffer_pool_scan (size : Nat) (use_VBO : Bool) :
    List GPUBuffer → Nat → Option (Nat × GPUBuffer) → Option (Nat × GPUBuffer)
  | [], _, best => best
  | b :: rest, i, best =>
    if b.use_vbo ≠ use_VBO then
      gpu_buffer_pool_scan size use_VBO rest (i + 1) best
    else if b.size = size then
      some (i, b)
    else if b.size > size ∧ size > b.size / 2 then
      match best with
      | none => gpu_buffer_pool_scan size use_VBO rest (i + 1) (some (i, b))
      | some (j, bb) =>
        if bb.size > b.size then
          gpu_buffer_pool_scan size use_VBO rest (i + 1) (some (i, b))
        else
          gpu_buffer_pool_scan size use_VBO rest (i + 1) (some (j, bb))
    else
      gpu_buffer_pool_scan size use_VBO rest (i + 1) best

/-- `gpu_buffer_alloc_intern`: returns the null buffer for size 0; otherwise
scans the pool for a best-fit entry, removing and returning it on a hit, and
creates a fresh buffer of the requested size otherwise.  (Host-memory
allocation is modelled as always succeeding.) -/
def gpu_buffer_alloc_intern (size : Nat) (use_VBO : Bool)
    (pool : GPUBufferPool) : AllocResult × GPUBufferPool :=
  if size = 0 then
    (AllocResult.null, pool)
  else
    match gpu_buffer_pool_scan size use_VBO pool.buffers 0 none with
    | some (bestfit, buf) =>
      (AllocResult.pooled buf,
        ⟨gpu_buffer_pool_remove_index pool.buffers bestfit, pool.maxsize⟩)
    | none =>
      (AllocResult.fresh ⟨size, use_VBO⟩, pool)

/-- `GPU_buffer_alloc`: early-outs with the null buffer for size 0, otherwise
calls `gpu_buffer_alloc_intern` under the pool mutex.  The `use_VBOs`
decision (driver capabilities and user preference) is taken as a
parameter. -/
def GPU_buffer_alloc (size : Nat) (use_VBOs : Bool) (pool : GPUBufferPool) :
    AllocResult × GPUBufferPool :=
  if size = 0 then
    (AllocResult.null, pool)
  else
    gpu_buffer_alloc_intern size use_VBOs pool

/-! ### Pool trimming characterization -/

/-- The main-thread trimming loop keeps the first
`min length (MAX_FREE_GPU_BUFFERS - 1)` entries and destroys the rest,
oldest (last) first in the destruction order reversed; concretely the kept
part is a `take` and the destroyed part the matching `drop`. -/
theorem pool_trim_loop_eq (l : List GPUBuffer) :
    pool_trim_loop l =
      (l.take (min l.length (MAX_FREE_GPU_BUFFERS - 1)),
       l.drop (min l.length (MAX_FREE_GPU_BUFFERS - 1))) := by
  induction l using List.reverseRecOn with
  | nil => rw [pool_trim_loop]; simp [MAX_FREE_GPU_BUFFERS]
  | append_singleton xs x ih =>
    rw [pool_trim_loop]
    by_cases h : MAX_FREE_GPU_BUFFERS ≤ (xs ++ [x]).length
    · have hx : 7 ≤ xs.length := by
        simp only [List.length_append, List.length_singleton] at h
        unfold MAX_FREE_GPU_BUFFERS at h
        omega
      rw [dif_pos h]
      rw [List.dropLast_concat, List.getLast?_concat, ih]
      have h1 : min xs.length (MAX_FREE_GPU_BUFFERS - 1) = 7 := by
        unfold MAX_FREE_GPU_BUFFERS
        omega
      have h2 : min (xs ++ [x]).length (MAX_FREE_GPU_BUFFERS - 1) = 7 := by
        simp only [List.length_append, List.length_singleton]
        unfold MAX_FREE_GPU_BUFFERS
        omega
      rw [h1, h2]
      simp only [Prod.mk.injEq]
      refine ⟨(List.take_append_of_le_length hx).symm, ?_⟩
      simp only [Option.toList_some]
      rw [List.drop_append_of_le_length hx]
    · rw [dif_neg h]
      have hx : (xs ++ [x]).length ≤ 7 := by
        unfold MAX_FREE_GPU_BUFFERS at h
        omega
      have h2 : min (xs ++ [x]).length (MAX_FREE_GPU_BUFFERS - 1) =
          (xs ++ [x]).length := by
        unfold MAX_FREE_GPU_BUFFERS
        omega
      rw [h2]
      simp

/-- Spec-side characterization of an acceptable oversized pool entry:
allocation kind matches, larger than the request but less than twice it.
(The code tests `bufsize > size && size > bufsize / 2`, which is equivalent;
see `poolCandidate_iff_code`.) -/
def poolCandidate (size : Nat) (use_VBO : Bool) (b : GPUBuffer) : Prop :=
  b.use_vbo = use_VBO ∧ size < b.size ∧ b.size < 2 * size

instance (size : Nat) (use_VBO : Bool) (b : GPUBuffer) :
    Decidable (poolCandidate size use_VBO b) := by
  unfold poolCandidate
  infer_instance

theorem poolCandidate_iff_code (size : Nat) (use_VBO : Bool) (b : GPUBuffer) :
    poolCandidate size use_VBO b ↔
      b.use_vbo = use_VBO ∧ b.size > size ∧ size > b.size / 2 := by
  unfold poolCandidate
  constructor
  · rintro ⟨h1, h2, h3⟩
    exact ⟨h1, h2, by omega⟩
  · rintro ⟨h1, h2, h3⟩
    exact ⟨h1, h2, by omega⟩

/-- The scanning loop finds an exact match whenever one is present (with the
matching allocation kind), no matter what tentative best fit it carries.
`l0` is the full pool array, `l` the not-yet-scanned tail starting at
index `i`. -/
theorem scan_exact_spec (size : Nat) (flag : Bool) (l0 : List GPUBuffer) :
    ∀ (l : List GPUBuffer) (i : Nat) (best : Option (Nat × GPUBuffer)),
      (∀ m : Nat, l[m]? = l0[i + m]?) →
      (∃ b ∈ l, b.use_vbo = flag ∧ b.size = size) →
      ∃ j buf, gpu_buffer_pool_scan size flag l i best = some (j, buf) ∧
        l0[j]? = some buf ∧ buf.use_vbo = flag ∧ buf.size = size := by
  intro l
  induction l with
  | nil =>
    intro i best _ hex
    simp at hex
  | cons b rest ih =>
    intro i best hpos hex
    have hposrest : ∀ m : Nat, rest[m]? = l0[i + 1 + m]? := by
      intro m
      have h1 := hpos (m + 1)
      rw [List.getElem?_cons_succ] at h1
      rw [h1]
      have h2 : i + (m + 1) = i + 1 + m := by omega
      rw [h2]
    have hhead : l0[i]? = some b := by
      have h0 := hpos 0
      simpa using h0.symm
    simp only [gpu_buffer_pool_scan]
    by_cases hvbo : b.use_vbo ≠ flag
    · rw [if_pos hvbo]
      apply ih (i + 1) best hposrest
      obtain ⟨b1, hb1, hflag, hsize⟩ := hex
      rcases List.mem_cons.mp hb1 with rfl | hmem
      · exact absurd hflag hvbo
      · exact ⟨b1, hmem, hflag, hsize⟩
    · rw [if_neg hvbo]
      push_neg at hvbo
      by_cases hsz : b.size = size
      · rw [if_pos hsz]
        exact ⟨i, b, rfl, hhead, hvbo, hsz⟩
      · rw [if_neg hsz]
        have hexrest : ∃ b1 ∈ rest, b1.use_vbo = flag ∧ b1.size = size := by
          obtain ⟨b1, hb1, hflag, hsize⟩ := hex
          rcases List.mem_cons.mp hb1 with rfl | hmem
          · exact absurd hsize hsz
          · exact ⟨b1, hmem, hflag, hsize⟩
        by_cases hcand : b.size > size ∧ size > b.size / 2
        · rw [if_pos hcand]
          rcases best with _ | ⟨k, bb⟩
          · exact ih (i + 1) (some (i, b)) hposrest hexrest
          · dsimp only
            by_cases hlt : bb.size > b.size
            · rw [if_pos hlt]
              exact ih (i + 1) (some (i, b)) hposrest hexrest
            · rw [if_neg hlt]
              exact ih (i + 1) (some (k, bb)) hposrest hexrest
        · rw [if_neg hcand]
          exact ih (i + 1) best hposrest hexrest

/-- When no exact match (with matching allocation kind) is present, the
scanning loop returns `none` exactly when there is no acceptable oversized
entry either, and otherwise returns an acceptable entry of minimal size
among the acceptable ones (and no larger than the carried best fit). -/
theorem scan_bestfit_spec (size : Nat) (flag : Bool) (l0 : List GPUBuffer) :
    ∀ (l : List GPUBuffer) (i : Nat) (best : Option (Nat × GPUBuffer)),
      (∀ m : Nat, l[m]? = l0[i + m]?) →
      (∀ k bb, best = some (k, bb) → l0[k]? = some bb ∧ bb.use_vbo = flag ∧
        bb.size > size ∧ size > bb.size / 2) →
      (∀ b ∈ l, b.use_vbo = flag → b.size ≠ size) →
      (gpu_buffer_pool_scan size flag l i best = none →
        best = none ∧
        ∀ b ∈ l, ¬(b.use_vbo = flag ∧ b.size > size ∧ size > b.size / 2)) ∧
      (∀ j buf, gpu_buffer_pool_scan size flag l i best = some (j, buf) →
        l0[j]? = some buf ∧ buf.use_vbo = flag ∧ buf.size > size ∧
        size > buf.size / 2 ∧
        (∀ b ∈ l, b.use_vbo = flag → b.size > size → size > b.size / 2 →
          buf.size ≤ b.size) ∧
        (∀ k bb, best = some (k, bb) → buf.size ≤ bb.size)) := by
  intro l
  induction l with
  | nil =>
    intro i best _ hbest _
    constructor
    · intro hnone
      simp only [gpu_buffer_pool_scan] at hnone
      exact ⟨hnone, by simp⟩
    · intro j buf hsome
      simp only [gpu_buffer_pool_scan] at hsome
      obtain ⟨hix, hflag, hgt, hdiv⟩ := hbest j buf hsome
      refine ⟨hix, hflag, hgt, hdiv, by simp, ?_⟩
      intro k bb hkb
      rw [hkb] at hsome
      simp only [Option.some.injEq, Prod.mk.injEq] at hsome
      obtain ⟨_, h2⟩ := hsome
      rw [h2]
  | cons b rest ih =>
    intro i best hpos hbest hne
    have hposrest : ∀ m : Nat, rest[m]? = l0[i + 1 + m]? := by
      intro m
      have h1 := hpos (m + 1)
      rw [List.getElem?_cons_succ] at h1
      rw [h1]
      have h2 : i + (m + 1) = i + 1 + m := by omega
      rw [h2]
    have hhead : l0[i]? = some b := by
      have h0 := hpos 0
      simpa using h0.symm
    have hnerest : ∀ b1 ∈ rest, b1.use_vbo = flag → b1.size ≠ size :=
      fun b1 hmem => hne b1 (List.mem_cons_of_mem b hmem)
    simp only [gpu_buffer_pool_scan]
    by_cases hvbo : b.use_vbo ≠ flag
    · rw [if_pos hvbo]
      have h := ih (i + 1) best hposrest hbest hnerest
      constructor
      · intro hnone
        obtain ⟨h1, h2⟩ := h.1 hnone
        refine ⟨h1, ?_⟩
        intro b1 hb1
        rcases List.mem_cons.mp hb1 with rfl | hmem
        · rintro ⟨hf, _⟩
          exact hvbo hf
        · exact h2 b1 hmem
      · intro j buf hsome
        obtain ⟨hix, hflag, hgt, hdiv, hmin, hbb⟩ := h.2 j buf hsome
        refine ⟨hix, hflag, hgt, hdiv, ?_, hbb⟩
        intro b1 hb1
        rcases List.mem_cons.mp hb1 with rfl | hmem
        · intro hf
          exact absurd hf hvbo
        · exact hmin b1 hmem
    · rw [if_neg hvbo]
      push_neg at hvbo
      have hsz : ¬b.size = size := hne b (List.mem_cons_self b rest) hvbo
      rw [if_neg hsz]
      by_cases hcand : b.size > size ∧ size > b.size / 2
      · rw [if_pos hcand]
        have hnewbest : ∀ k bb, some (i, b) = some (k, bb) →
            l0[k]? = some bb ∧ bb.use_vbo = flag ∧ bb.size > size ∧
              size > bb.size / 2 := by
          intro k bb hkb
          simp only [Option.some.injEq, Prod.mk.injEq] at hkb
          obtain ⟨h1, h2⟩ := hkb
          rw [← h1, ← h2]
          exact ⟨hhead, hvbo, hcand.1, hcand.2⟩
        rcases best with _ | ⟨k, bb⟩
        · have h := ih (i + 1) (some (i, b)) hposrest hnewbest hnerest
          constructor
          · intro hnone
            obtain ⟨h1, _⟩ := h.1 hnone
            exact absurd h1 (by simp)
          · intro j buf hsome
            obtain ⟨hix, hflag, hgt, hdiv, hmin, hbb⟩ := h.2 j buf hsome
            refine ⟨hix, hflag, hgt, hdiv, ?_, by simp⟩
            intro b1 hb1
            rcases List.mem_cons.mp hb1 with rfl | hmem
            · intro _ _ _
              exact hbb i b1 rfl
            · exact hmin b1 hmem
        · obtain ⟨_, _, hbbgt, hbbdiv⟩ := hbest k bb rfl
          dsimp only
          by_cases hlt : bb.size > b.size
          · rw [if_pos hlt]
            have h := ih (i + 1) (some (i, b)) hposrest hnewbest hnerest
            constructor
            · intro hnone
              obtain ⟨h1, _⟩ := h.1 hnone
              exact absurd h1 (by simp)
            · intro j buf hsome
              obtain ⟨hix, hflag, hgt, hdiv, hmin, hnb⟩ := h.2 j buf hsome
              have hble : buf.size ≤ b.size := hnb i b rfl
              refine ⟨hix, hflag, hgt, hdiv, ?_, ?_⟩
              · intro b1 hb1
                rcases List.mem_cons.mp hb1 with rfl | hmem
                · intro _ _ _
                  exact hble
                · exact hmin b1 hmem
              · intro k1 bb1 hkb
                simp only [Option.some.injEq, Prod.mk.injEq] at hkb
                rw [← hkb.2]
                omega
          · rw [if_neg hlt]
            have h := ih (i + 1) (some (k, bb)) hposrest
              (by
                intro k1 bb1 hkb
                simp only [Option.some.injEq, Prod.mk.injEq] at hkb
                rw [← hkb.1, ← hkb.2]
                exact hbest k bb rfl)
              hnerest
            constructor
            · intro hnone
              obtain ⟨h1, _⟩ := h.1 hnone
              exact absurd h1 (by simp)
            · intro j buf hsome
              obtain ⟨hix, hflag, hgt, hdiv, hmin, hnb⟩ := h.2 j buf hsome
              have hbble : buf.size ≤ bb.size := hnb k bb rfl
              refine ⟨hix, hflag, hgt, hdiv, ?_, ?_⟩
              · intro b1 hb1
                rcases List.mem_cons.mp hb1 with rfl | hmem
                · intro _ _ _
                  omega
                · exact hmin b1 hmem
              · intro k1 bb1 hkb
                simp only [Option.some.injEq, Prod.mk.injEq] at hkb
                rw [← hkb.2]
                exact hbble
      · rw [if_neg hcand]
        have h := ih (i + 1) best hposrest hbest hnerest
        constructor
        · intro hnone
          obtain ⟨h1, h2⟩ := h.1 hnone
          refine ⟨h1, ?_⟩
          intro b1 hb1
          rcases List.mem_cons.mp hb1 with rfl | hmem
          · rintro ⟨_, hg, hd⟩
            exact hcand ⟨hg, hd⟩
          · exact h2 b1 hmem
        · intro j buf hsome
          obtain ⟨hix, hflag, hgt, hdiv, hmin, hbb⟩ := h.2 j buf hsome
          refine ⟨hix, hflag, hgt, hdiv, ?_, hbb⟩
          intro b1 hb1
          rcases List.mem_cons.mp hb1 with rfl | hmem
          · intro _ hg hd
            exact absurd ⟨hg, hd⟩ hcand
          · exact hmin b1 hmem

/-- An exact-size entry of matching allocation kind in the pool guarantees
that `gpu_buffer_alloc_intern` is a pool hit returning a buffer of exactly
the requested size, removed from the pool. -/
theorem alloc_exact_hit (size : Nat) (flag : Bool) (pool : GPUBufferPool)
    (hsz : 0 < size)
    (hex : ∃ b ∈ pool.buffers, b.use_vbo = flag ∧ b.size = size) :
    ∃ j buf, gpu_buffer_alloc_intern size flag pool =
        (AllocResult.pooled buf,
          ⟨pool.buffers.eraseIdx j, pool.maxsize⟩) ∧
      pool.buffers[j]? = some buf ∧ buf.use_vbo = flag ∧ buf.size = size := by
  obtain ⟨j, buf, hscan, hix, hflag, hsize⟩ :=
    scan_exact_spec size flag pool.buffers pool.buffers 0 none
      (by intro m; rw [Nat.zero_add]) hex
  refine ⟨j, buf, ?_, hix, hflag, hsize⟩
  unfold gpu_buffer_alloc_intern
  rw [if_neg (by omega), hscan]
  rfl

/-- `gpu_buffer_free_intern` always places the released buffer at the front
of the pool. -/
theorem free_intern_cons (buffer : GPUBuffer) (pool : GPUBufferPool)
    (is_main_thread : Bool) :
    ∃ tl, (gpu_buffer_free_intern buffer pool is_main_thread).1.buffers =
      buffer :: tl := by
  unfold gpu_buffer_free_intern
  cases is_main_thread
  · exact ⟨pool.buffers, rfl⟩
  · exact ⟨(pool_trim_loop pool.buffers).1, rfl⟩

/-- Full best-fit acquisition contract of the buffer pool (amended from C5:
only pool entries whose allocation kind `use_vbo` matches the request are
considered, as the code's scan skips mismatched entries). -/
def acquireSpec (size : Nat) (use_VBO : Bool) (pool : GPUBufferPool) : Prop :=
  ((∃ b ∈ pool.buffers, b.use_vbo = use_VBO ∧ b.size = size) →
    ∃ j buf, gpu_buffer_alloc_intern size use_VBO pool =
        (AllocResult.pooled buf,
          ⟨pool.buffers.eraseIdx j, pool.maxsize⟩) ∧
      pool.buffers[j]? = some buf ∧ buf.use_vbo = use_VBO ∧
      buf.size = size) ∧
  ((∀ b ∈ pool.buffers, b.use_vbo = use_VBO → b.size ≠ size) →
    (∃ b ∈ pool.buffers, poolCandidate size use_VBO b) →
    ∃ j buf, gpu_buffer_alloc_intern size use_VBO pool =
        (AllocResult.pooled buf,
          ⟨pool.buffers.eraseIdx j, pool.maxsize⟩) ∧
      pool.buffers[j]? = some buf ∧ poolCandidate size use_VBO buf ∧
      ∀ b ∈ pool.buffers, poolCandidate size use_VBO b →
        buf.size ≤ b.size) ∧
  ((∀ b ∈ pool.buffers, b.use_vbo = use_VBO →
      b.size ≠ size ∧ ¬poolCandidate size use_VBO b) →
    gpu_buffer_alloc_intern size use_VBO pool =
      (AllocResult.fresh ⟨size, use_VBO⟩, pool)) ∧
  (∀ b : GPUBuffer, b.size = size → b.use_vbo = use_VBO →
    ∀ is_main_thread : Bool,
      ∃ buf pool2,
        gpu_buffer_alloc_intern size use_VBO
            (gpu_buffer_free_intern b pool is_main_thread).1 =
          (AllocResult.pooled buf, pool2) ∧ buf.size = size) ∧
  ((∀ b ∈ pool.buffers, 2 * b.size < size) →
    gpu_buffer_alloc_intern size use_VBO pool =
      (AllocResult.fresh ⟨size, use_VBO⟩, pool))

theorem mem_of_getElem_opt {α : Type} {l : List α} {i : Nat} {a : α}
    (h : l[i]? = some a) : a ∈ l := by
  obtain ⟨hn, rfl⟩ := List.getElem?_eq_some.mp h
  exact List.getElem_mem hn

/-- **C5 (amended).** For every pool state and requested size `N > 0`, buffer
acquisition first returns a pooled buffer whose size exactly equals `N` if
one with the requested allocation kind exists; otherwise it returns a
smallest pooled buffer of matching kind whose size is larger than `N` but
less than twice `N` (removing it from the pool); otherwise it allocates a
fresh buffer.  Consequently, acquiring `N` immediately after releasing an
`N`-byte buffer is a pool hit, and acquiring a size more than double every
pooled entry always allocates fresh. -/
theorem C5_buffer_acquire_bestfit (size : Nat) (use_VBO : Bool)
    (pool : GPUBufferPool) (hsz : 0 < size) :
    acquireSpec size use_VBO pool := by
  have hspec := scan_bestfit_spec size use_VBO pool.buffers pool.buffers
  refine ⟨alloc_exact_hit size use_VBO pool hsz, ?_, ?_, ?_, ?_⟩
  · -- no exact match, an acceptable oversized entry exists
    intro hne hcand
    have h := hspec 0 none (by intro m; rw [Nat.zero_add])
      (by intro k bb hkb; cases hkb) hne
    rcases hs : gpu_buffer_pool_scan size use_VBO pool.buffers 0 none with
      _ | ⟨j, buf⟩
    · obtain ⟨_, hnocand⟩ := h.1 hs
      obtain ⟨b, hb, hbc⟩ := hcand
      exact absurd ((poolCandidate_iff_code size use_VBO b).mp hbc)
        (hnocand b hb)
    · obtain ⟨hix, hflag, hgt, hdiv, hmin, _⟩ := h.2 j buf hs
      refine ⟨j, buf, ?_, hix,
        (poolCandidate_iff_code size use_VBO buf).mpr ⟨hflag, hgt, hdiv⟩, ?_⟩
      · unfold gpu_buffer_alloc_intern
        rw [if_neg (by omega), hs]
        rfl
      · intro b hb hbc
        obtain ⟨h1, h2, h3⟩ := (poolCandidate_iff_code size use_VBO b).mp hbc
        exact hmin b hb h1 h2 h3
  · -- no acceptable entry at all: fresh allocation
    intro hnone
    have h := hspec 0 none (by intro m; rw [Nat.zero_add])
      (by intro k bb hkb; cases hkb)
      (fun b hb hf => (hnone b hb hf).1)
    rcases hs : gpu_buffer_pool_scan size use_VBO pool.buffers 0 none with
      _ | ⟨j, buf⟩
    · unfold gpu_buffer_alloc_intern
      rw [if_neg (by omega), hs]
    · obtain ⟨hix, hflag, hgt, hdiv, _, _⟩ := h.2 j buf hs
      have hmem : buf ∈ pool.buffers := mem_of_getElem_opt hix
      exact absurd
        ((poolCandidate_iff_code size use_VBO buf).mpr ⟨hflag, hgt, hdiv⟩)
        (hnone buf hmem hflag).2
  · -- release then re-acquire: always a pool hit
    intro b hbsize hbflag is_main_thread
    obtain ⟨tl, htl⟩ := free_intern_cons b pool is_main_thread
    obtain ⟨j, buf, halloc, _, _, hbufsize⟩ :=
      alloc_exact_hit size use_VBO
        (gpu_buffer_free_intern b pool is_main_thread).1 hsz
        ⟨b, by rw [htl]; exact List.mem_cons_self b tl, hbflag, hbsize⟩
    exact ⟨buf, _, halloc, hbufsize⟩
  · -- request more than double every pooled entry: fresh allocation
    intro hsmall
    have h := hspec 0 none (by intro m; rw [Nat.zero_add])
      (by intro k bb hkb; cases hkb)
      (by
        intro b hb _
        have := hsmall b hb
        omega)
    rcases hs : gpu_buffer_pool_scan size use_VBO pool.buffers 0 none with
      _ | ⟨j, buf⟩
    · unfold gpu_buffer_alloc_intern
      rw [if_neg (by omega), hs]
    · obtain ⟨hix, _, hgt, _, _, _⟩ := h.2 j buf hs
      have := hsmall buf (mem_of_getElem_opt hix)
      omega

/-- **C5 (counterexample to the claim as stated).** The pool holds an entry
whose size exactly equals the requested size 4, yet acquisition does not
return it — it allocates fresh — because the entry's allocation kind
(`use_vbo`) differs from the request.  The claim, which quantifies over
every pool state and promises an exact-size pool hit whenever one exists,
is therefore false without the kind-matching qualification. -/
theorem C5_counterexample_vbo_kind :
    (⟨4, true⟩ : GPUBuffer) ∈
        (⟨[⟨4, true⟩], 8⟩ : GPUBufferPool).buffers ∧
    (⟨4, true⟩ : GPUBuffer).size = 4 ∧
    (gpu_buffer_alloc_intern 4 false ⟨[⟨4, true⟩], 8⟩).1.isPooled = false ∧
    gpu_buffer_alloc_intern 4 false ⟨[⟨4, true⟩], 8⟩ =
      (AllocResult.fresh ⟨4, false⟩, ⟨[⟨4, true⟩], 8⟩) := by
  refine ⟨by decide, by decide, by decide, by decide⟩

/-- Witness for `C5_buffer_acquire_bestfit` at a concrete input. -/
theorem C5_buffer_acquire_bestfit_witness :
    0 < 3 ∧ acquireSpec 3 false ⟨[⟨5, false⟩, ⟨4, false⟩], 8⟩ :=
  ⟨by decide, C5_buffer_acquire_bestfit 3 false ⟨[⟨5, false⟩, ⟨4, false⟩], 8⟩
    (by decide)⟩

/-- Release contract of the buffer pool: front insertion, the context
asymmetry of trimming vs. growth, and the capacity invariant. -/
def releaseSpec (b : GPUBuffer) (pool : GPUBufferPool)
    (is_main_thread : Bool) : Prop :=
  ((gpu_buffer_free_intern b pool is_main_thread).1.buffers.head? =
      some b) ∧
  (is_main_thread = true →
    (gpu_buffer_free_intern b pool true).1.buffers =
        b :: pool.buffers.take
          (min pool.buffers.length (MAX_FREE_GPU_BUFFERS - 1)) ∧
    (gpu_buffer_free_intern b pool true).2 =
        pool.buffers.drop
          (min pool.buffers.length (MAX_FREE_GPU_BUFFERS - 1)) ∧
    (gpu_buffer_free_intern b pool true).1.buffers.length ≤
        MAX_FREE_GPU_BUFFERS ∧
    (gpu_buffer_free_intern b pool true).1.maxsize = pool.maxsize) ∧
  (is_main_thread = false →
    (gpu_buffer_free_intern b pool false).2 = [] ∧
    (gpu_buffer_free_intern b pool false).1.buffers = b :: pool.buffers ∧
    (pool.maxsize = pool.buffers.length →
      (gpu_buffer_free_intern b pool false).1.maxsize =
        pool.maxsize + MAX_FREE_GPU_BUFFERS) ∧
    (pool.maxsize ≠ pool.buffers.length →
      (gpu_buffer_free_intern b pool false).1.maxsize = pool.maxsize)) ∧
  ((gpu_buffer_free_intern b pool is_main_thread).1.buffers.length ≤
      (gpu_buffer_free_intern b pool is_main_thread).1.maxsize)

/-- **C6.** Releasing a buffer always inserts it at the front of the free
list.  From the main context the pool is first trimmed (destroying the
oldest — rearmost — entries) so that after insertion it holds at most
`MAX_FREE_GPU_BUFFERS = 8` buffers; from any other context nothing is
destroyed and the capacity is grown instead when the array is full.  In both
cases the entry count never exceeds the allocated capacity. -/
theorem C6_release_asymmetry (b : GPUBuffer) (pool : GPUBufferPool)
    (is_main_thread : Bool)
    (hcap : MAX_FREE_GPU_BUFFERS ≤ pool.maxsize)
    (hinv : pool.buffers.length ≤ pool.maxsize) :
    releaseSpec b pool is_main_thread := by
  unfold MAX_FREE_GPU_BUFFERS at hcap
  refine ⟨?_, ?_, ?_, ?_⟩
  · obtain ⟨tl, htl⟩ := free_intern_cons b pool is_main_thread
    rw [htl]
    rfl
  · intro _
    refine ⟨?_, ?_, ?_, ?_⟩
    · simp [gpu_buffer_free_intern, pool_trim_loop_eq]
    · simp [gpu_buffer_free_intern, pool_trim_loop_eq]
    · simp only [gpu_buffer_free_intern, if_true, pool_trim_loop_eq,
        List.length_cons, List.length_take]
      unfold MAX_FREE_GPU_BUFFERS
      omega
    · simp [gpu_buffer_free_intern]
  · intro _
    refine ⟨?_, ?_, ?_, ?_⟩
    · simp [gpu_buffer_free_intern]
    · simp [gpu_buffer_free_intern]
    · intro h
      simp [gpu_buffer_free_intern, if_pos h]
    · intro h
      simp [gpu_buffer_free_intern, if_neg h]
  · cases is_main_thread
    · simp only [gpu_buffer_free_intern, Bool.false_eq_true, if_false]
      by_cases h : pool.maxsize = pool.buffers.length
      · simp only [if_pos h, List.length_cons]
        unfold MAX_FREE_GPU_BUFFERS
        omega
      · simp only [if_neg h, List.length_cons]
        omega
    · simp only [gpu_buffer_free_intern, if_true, pool_trim_loop_eq]
      simp only [List.length_cons, List.length_take]
      unfold MAX_FREE_GPU_BUFFERS
      omega

/-- Witness for `C6_release_asymmetry` at a concrete input. -/
theorem C6_release_asymmetry_witness :
    MAX_FREE_GPU_BUFFERS ≤ 8 ∧ ([] : List GPUBuffer).length ≤ 8 ∧
      releaseSpec ⟨2, false⟩ ⟨[], 8⟩ true :=
  ⟨by decide, by decide,
    C6_release_asymmetry ⟨2, false⟩ ⟨[], 8⟩ true (by decide) (by decide)⟩

/-- **C10.** Requesting a GPU buffer of size zero returns the null buffer
and leaves the pool untouched, both through `gpu_buffer_alloc_intern` and
through the locking wrapper `GPU_buffer_alloc`. -/
theorem C10_zero_size_alloc (use_VBO : Bool) (pool : GPUBufferPool) :
    gpu_buffer_alloc_intern 0 use_VBO pool = (AllocResult.null, pool) ∧
    GPU_buffer_alloc 0 use_VBO pool = (AllocResult.null, pool) := by
  constructor
  · unfold gpu_buffer_alloc_intern
    rw [if_pos rfl]
  · unfold GPU_buffer_alloc
    rw [if_pos rfl]

/-! ## Weight table (`get_ss_weights` in `subsurf_ccg.c`)

The per-corner grid-sample weight computation is embedded over the exact
rationals `ℚ` (the C code computes in `float`; the barycentric row-sum
property claimed is an identity of the closed-form blend and is settled in
exact arithmetic). -/

/-- `fx = 0.5f - (float)x / (float)(gridCuts + 1) / 2.0f` (and likewise
`fy`). -/
def ss_fx (gridCuts x : Nat) : ℚ :=
  1 / 2 - (x : ℚ) / ((gridCuts : ℚ) + 1) / 2

/-- One row of the weight array computed by `get_ss_weights` for corner `i`
at grid sample `(x, y)`: the `faceLen` entries written at
`&w[((i * (gridCuts+2) + x) * (gridCuts+2) + y) * faceLen]`.  For
`faceLen > 3` the row is first filled with the evenly distributed residual
`(1 - (w1+w2+w4)) / (faceLen-3)`; for `faceLen = 3` the backing store is
zero-initialized (`MEM_callocN`).  Then `w[i] = w1`,
`w[(i - 1 + faceLen) % faceLen] = w2` and `w[(i + 1) % faceLen] = w4` are
written, in that order. -/
def ssWeightRow (gridCuts faceLen i x y : Nat) : List ℚ :=
  let fx := ss_fx gridCuts x
  let fy := ss_fx gridCuts y
  let fac : ℚ := 1 / (faceLen : ℚ)
  let fac2 : ℚ := (faceLen : ℚ) - 4
  let w1 := (1 - fx) * (1 - fy) + -fac2 * fx * fy * fac
  let w2 := (1 - fx + fac2 * fx * (-fac)) * fy
  let w4 := fx * (1 - fy + -fac2 * fy * fac)
  let base : List ℚ :=
    if 3 < faceLen then
      List.replicate faceLen ((1 - (w1 + w2 + w4)) / ((faceLen : ℚ) - 3))
    else
      List.replicate faceLen 0
  ((base.set i w1).set ((i + faceLen - 1) % faceLen) w2).set
    ((i + 1) % faceLen) w4

/-- Sum of a list after replacing the element at an in-range position. -/
theorem sum_set_rat :
    ∀ (l : List ℚ) (i : Nat) (a : ℚ), (h : i < l.length) →
      (l.set i a).sum = l.sum - l.get ⟨i, h⟩ + a := by
  intro l
  induction l with
  | nil =>
    intro i a h
    simp at h
  | cons x xs ih =>
    intro i a h
    cases i with
    | zero =>
      simp [List.set]
      ring
    | succ n =>
      simp only [List.set, List.sum_cons, List.length_cons] at h ⊢
      have hn : n < xs.length := by
        simp at h
        omega
      rw [ih n a hn]
      simp [List.get]
      ring

/-- Sum of a constant row after the three writes `w[i] = w1`,
`w[(i-1+n) % n] = w2`, `w[(i+1) % n] = w4`: for `3 ≤ n` the three written
positions are pairwise distinct, so exactly three copies of the fill value
are replaced. -/
theorem row_sum_three_writes (n i : Nat) (hn : 3 ≤ n) (hi : i < n)
    (r w1 w2 w4 : ℚ) :
    ((((List.replicate n r).set i w1).set ((i + n - 1) % n) w2).set
        ((i + 1) % n) w4).sum = (n : ℚ) * r - 3 * r + (w1 + w2 + w4) := by
  have hp2 : (i + n - 1) % n = if i = 0 then n - 1 else i - 1 := by
    by_cases h0 : i = 0
    · rw [if_pos h0, h0]
      rw [Nat.zero_add]
      rw [Nat.mod_eq_of_lt (by omega)]
    · rw [if_neg h0]
      have he : i + n - 1 = (i - 1) + n := by omega
      rw [he, Nat.add_mod_right]
      rw [Nat.mod_eq_of_lt (by omega)]
  have hp3 : (i + 1) % n = if i + 1 = n then 0 else i + 1 := by
    by_cases h0 : i + 1 = n
    · rw [if_pos h0, h0, Nat.mod_self]
    · rw [if_neg h0]
      rw [Nat.mod_eq_of_lt (by omega)]
  have hp2lt : (i + n - 1) % n < n := by rw [hp2]; split <;> omega
  have hp3lt : (i + 1) % n < n := by rw [hp3]; split <;> omega
  have hp2ne : (i + n - 1) % n ≠ i := by
    rw [hp2]; split <;> omega
  have hp3ne : (i + 1) % n ≠ i := by
    rw [hp3]; split <;> omega
  have hp23 : (i + 1) % n ≠ (i + n - 1) % n := by
    rw [hp2, hp3]; split <;> split <;> omega
  have hlen1 : (List.replicate n r).length = n := List.length_replicate n r
  have hlen2 : ((List.replicate n r).set i w1).length = n := by
    rw [List.length_set, hlen1]
  have hlen3 : (((List.replicate n r).set i w1).set ((i + n - 1) % n)
      w2).length = n := by
    rw [List.length_set, hlen2]
  rw [sum_set_rat _ _ _ (by rw [hlen3]; exact hp3lt)]
  rw [sum_set_rat _ _ _ (by rw [hlen2]; exact hp2lt)]
  rw [sum_set_rat _ _ _ (by rw [hlen1]; exact hi)]
  have hg3 : ((((List.replicate n r).set i w1).set ((i + n - 1) % n)
      w2).get ⟨(i + 1) % n, by rw [hlen3]; exact hp3lt⟩) = r := by
    simp only [List.get_eq_getElem]
    rw [List.getElem_set_ne (by omega)]
    rw [List.getElem_set_ne (by omega)]
    exact List.getElem_replicate _ _
  have hg2 : (((List.replicate n r).set i w1).get
      ⟨(i + n - 1) % n, by rw [hlen2]; exact hp2lt⟩) = r := by
    simp only [List.get_eq_getElem]
    rw [List.getElem_set_ne (by omega)]
    exact List.getElem_replicate _ _
  have hg1 : ((List.replicate n r).get ⟨i, by rw [hlen1]; exact hi⟩) = r := by
    simp only [List.get_eq_getElem]
    exact List.getElem_replicate _ _
  rw [hg3, hg2, hg1]
  rw [List.sum_replicate, nsmul_eq_mul]
  ring

/-- **C3.** For every valence (face length) ≥ 3 and every grid-cut count,
each row of the weight array produced by `get_ss_weights` sums to exactly 1
in exact rational arithmetic: the residual fill plus `w1`, `w2`, `w4` for
valence > 3, and `w1 + w2 + w4` alone for valence 3. -/
theorem C3_weight_row_sum (gridCuts faceLen i x y : Nat)
    (hn : 3 ≤ faceLen) (hi : i < faceLen) :
    (ssWeightRow gridCuts faceLen i x y).sum = 1 := by
  unfold ssWeightRow
  simp only []
  by_cases h4 : 3 < faceLen
  · rw [if_pos h4]
    rw [row_sum_three_writes faceLen i hn hi]
    have hne3 : ((faceLen : ℚ) - 3) ≠ 0 := by
      have h1 : (4 : ℚ) ≤ (faceLen : ℚ) := by exact_mod_cast h4
      intro hc
      linarith
    have hne0 : ((faceLen : ℚ)) ≠ 0 := by
      have h1 : (4 : ℚ) ≤ (faceLen : ℚ) := by exact_mod_cast h4
      intro hc
      linarith
    field_simp
    ring
  · have h3 : faceLen = 3 := by omega
    subst h3
    rw [if_neg h4]
    rw [row_sum_three_writes 3 i hn hi]
    norm_num [ss_fx]
    ring

/-- Witness for `C3_weight_row_sum` at a concrete input. -/
theorem C3_weight_row_sum_witness :
    3 ≤ 4 ∧ 2 < 4 ∧ (ssWeightRow 1 4 2 0 1).sum = 1 :=
  ⟨by decide, by decide, C3_weight_row_sum 1 4 2 0 1 (by decide) (by decide)⟩

/-- The full flat weight array computed by the fill loop of
`get_ss_weights` for a given valence: rows for corner `i`, grid coordinates
`x`, `y` (in loop-nesting order), concatenated. -/
def computeWeights (gridCuts faceLen : Nat) : List ℚ :=
  ((List.range faceLen).map (fun i =>
    ((List.range (gridCuts + 2)).map (fun x =>
      ((List.range (gridCuts + 2)).map (fun y =>
        ssWeightRow gridCuts faceLen i x y)).flatten)).flatten)).flatten

/-- `FaceVertWeightEntry`: one weight-table slot; `valid` mirrors the C
flag, `w` the owned weight array (`[]` standing for the NULL pointer of an
untouched slot). -/
structure FaceVertWeightEntry where
  valid : Bool
  w : List ℚ
deriving DecidableEq

/-- `WeightTable`: `weight_table` models the allocated entry array, whose
allocated length is `len` (invariant: `weight_table.length = len`). -/
structure WeightTable where
  weight_table : List FaceVertWeightEntry
  len : Nat
deriving DecidableEq

/-- `get_ss_weights`: grows the table to `faceLen + 1` entries when
`len <= faceLen` (copying the old entries, new slots zero-initialized),
then returns the cached array for `faceLen` when its slot is valid and
otherwise computes, stores and returns the weight array.  Returns the
array together with the updated table. -/
def get_ss_weights (wtable : WeightTable) (gridCuts faceLen : Nat) :
    List ℚ × WeightTable :=
  let t : WeightTable :=
    if wtable.len ≤ faceLen then
      ⟨wtable.weight_table ++
        List.replicate (faceLen + 1 - wtable.weight_table.length)
          ⟨false, []⟩, faceLen + 1⟩
    else
      wtable
  match t.weight_table[faceLen]? with
  | some entry =>
    if entry.valid then
      (entry.w, t)
    else
      (computeWeights gridCuts faceLen,
        ⟨t.weight_table.set faceLen
          ⟨true, computeWeights gridCuts faceLen⟩, t.len⟩)
  | none => ([], t)

/-- Every valid slot `m` of an entry list holds exactly the weights
`computeWeights gridCuts m` (the deterministic pure function of valence and
grid-cut count). -/
def entriesConsistent (l : List FaceVertWeightEntry) (gridCuts : Nat) :
    Prop :=
  ∀ m e, l[m]? = some e → e.valid = true → e.w = computeWeights gridCuts m

/-- Table-level consistency: all valid cached slots agree with the pure
weight function for the given grid-cut count. -/
def wtableConsistent (wtable : WeightTable) (gridCuts : Nat) : Prop :=
  entriesConsistent wtable.weight_table gridCuts

theorem entriesConsistent_append_blank (l : List FaceVertWeightEntry)
    (gridCuts k : Nat) (h : entriesConsistent l gridCuts) :
    entriesConsistent (l ++ List.replicate k ⟨false, []⟩) gridCuts := by
  intro m e hm hv
  rw [List.getElem?_append] at hm
  by_cases hlt : m < l.length
  · rw [if_pos hlt] at hm
    exact h m e hm hv
  · rw [if_neg hlt] at hm
    rw [List.getElem?_replicate] at hm
    by_cases h2 : m - l.length < k
    · rw [if_pos h2] at hm
      injection hm with he
      rw [← he] at hv
      cases hv
    · rw [if_neg h2] at hm
      cases hm

theorem entriesConsistent_set (l : List FaceVertWeightEntry)
    (gridCuts n : Nat) (h : entriesConsistent l gridCuts) :
    entriesConsistent (l.set n ⟨true, computeWeights gridCuts n⟩)
      gridCuts := by
  intro m e hm hv
  by_cases hmn : n = m
  · subst hmn
    by_cases hr : n < l.length
    · rw [List.getElem?_set_self hr] at hm
      injection hm with he
      rw [← he]
    · have hnone : (l.set n ⟨true, computeWeights gridCuts n⟩)[n]? = none := by
        apply List.getElem?_eq_none
        rw [List.length_set]
        omega
      rw [hnone] at hm
      cases hm
  · rw [List.getElem?_set_ne hmn] at hm
    exact h m e hm hv

/-- **C8.** The weight table is memoized and pure: under the table
invariants (allocated length bookkeeping, and every valid slot holding the
pure weight function's value for its valence), a call returns exactly
`computeWeights gridCuts faceLen` — the deterministic pure function of
(valence, grid-cut count) — an immediately repeated call for the same
valence returns the identical cached array with the table unchanged (no
recomputation), and both invariants are preserved, so the same holds for
every later call of any call sequence. -/
theorem C8_weights_memoized_pure (wtable : WeightTable)
    (gridCuts faceLen : Nat)
    (hlen : wtable.weight_table.length = wtable.len)
    (hcons : wtableConsistent wtable gridCuts) :
    (get_ss_weights wtable gridCuts faceLen).1 =
        computeWeights gridCuts faceLen ∧
    get_ss_weights (get_ss_weights wtable gridCuts faceLen).2 gridCuts
        faceLen =
      ((get_ss_weights wtable gridCuts faceLen).1,
        (get_ss_weights wtable gridCuts faceLen).2) ∧
    (get_ss_weights wtable gridCuts faceLen).2.weight_table.length =
        (get_ss_weights wtable gridCuts faceLen).2.len ∧
    wtableConsistent (get_ss_weights wtable gridCuts faceLen).2 gridCuts := by
  by_cases hg : wtable.len ≤ faceLen
  · -- the table is grown; the slot for `faceLen` is freshly zeroed
    have hfirst : get_ss_weights wtable gridCuts faceLen =
        (computeWeights gridCuts faceLen,
          ⟨(wtable.weight_table ++
            List.replicate (faceLen + 1 - wtable.weight_table.length)
              (⟨false, []⟩ : FaceVertWeightEntry)).set faceLen
            ⟨true, computeWeights gridCuts faceLen⟩, faceLen + 1⟩) := by
      unfold get_ss_weights
      simp only []
      rw [if_pos hg]
      have hslot : (wtable.weight_table ++
          List.replicate (faceLen + 1 - wtable.weight_table.length)
            (⟨false, []⟩ : FaceVertWeightEntry))[faceLen]? =
          some ⟨false, []⟩ := by
        rw [List.getElem?_append]
        rw [if_neg (by omega)]
        rw [List.getElem?_replicate]
        rw [if_pos (by omega)]
      rw [hslot]
      dsimp only
      rw [if_neg (by simp)]
    have hlen2 : ((wtable.weight_table ++
        List.replicate (faceLen + 1 - wtable.weight_table.length)
          (⟨false, []⟩ : FaceVertWeightEntry)).set faceLen
          ⟨true, computeWeights gridCuts faceLen⟩).length = faceLen + 1 := by
      rw [List.length_set, List.length_append, List.length_replicate]
      omega
    have hslot2 : ((wtable.weight_table ++
        List.replicate (faceLen + 1 - wtable.weight_table.length)
          (⟨false, []⟩ : FaceVertWeightEntry)).set faceLen
          ⟨true, computeWeights gridCuts faceLen⟩)[faceLen]? =
        some ⟨true, computeWeights gridCuts faceLen⟩ := by
      apply List.getElem?_set_self
      rw [List.length_append, List.length_replicate]
      omega
    refine ⟨by rw [hfirst], ?_, ?_, ?_⟩
    · rw [hfirst]
      unfold get_ss_weights
      simp only []
      rw [if_neg (by omega)]
      rw [hslot2]
      dsimp only
      rw [if_pos rfl]
    · rw [hfirst, hlen2]
    · rw [hfirst]
      unfold wtableConsistent
      exact entriesConsistent_set _ _ _
        (entriesConsistent_append_blank _ _ _ hcons)
  · -- no growth; the slot for `faceLen` already exists
    push_neg at hg
    have hin : faceLen < wtable.weight_table.length := by omega
    obtain ⟨e, he⟩ : ∃ e, wtable.weight_table[faceLen]? = some e :=
      ⟨_, List.getElem?_eq_getElem hin⟩
    by_cases hv : e.valid
    · -- cache hit on the first call already
      have hew : e.w = computeWeights gridCuts faceLen := hcons _ _ he hv
      have hfirst : get_ss_weights wtable gridCuts faceLen =
          (e.w, wtable) := by
        unfold get_ss_weights
        simp only []
        rw [if_neg (by omega)]
        rw [he]
        dsimp only
        rw [if_pos hv]
      refine ⟨by rw [hfirst]; exact hew, ?_, ?_, ?_⟩
      · rw [hfirst]
        unfold get_ss_weights
        simp only []
        rw [if_neg (by omega)]
        rw [he]
        dsimp only
        rw [if_pos hv]
      · rw [hfirst]
        exact hlen
      · rw [hfirst]
        exact hcons
    · -- slot present but not yet valid: compute and store
      have hfirst : get_ss_weights wtable gridCuts faceLen =
          (computeWeights gridCuts faceLen,
            ⟨wtable.weight_table.set faceLen
              ⟨true, computeWeights gridCuts faceLen⟩, wtable.len⟩) := by
        unfold get_ss_weights
        simp only []
        rw [if_neg (by omega)]
        rw [he]
        dsimp only
        rw [if_neg hv]
      have hslot2 : (wtable.weight_table.set faceLen
          ⟨true, computeWeights gridCuts faceLen⟩)[faceLen]? =
          some ⟨true, computeWeights gridCuts faceLen⟩ :=
        List.getElem?_set_self hin
      refine ⟨by rw [hfirst], ?_, ?_, ?_⟩
      · rw [hfirst]
        unfold get_ss_weights
        simp only []
        rw [if_neg (by omega)]
        rw [hslot2]
        dsimp only
        rw [if_pos rfl]
      · rw [hfirst]
        simp only [List.length_set]
        exact hlen
      · rw [hfirst]
        unfold wtableConsistent
        exact entriesConsistent_set _ _ _ hcons

/-- Witness for `C8_weights_memoized_pure` at a concrete input. -/
theorem C8_weights_memoized_pure_witness :
    (⟨[], 0⟩ : WeightTable).weight_table.length =
        (⟨[], 0⟩ : WeightTable).len ∧
    wtableConsistent ⟨[], 0⟩ 0 ∧
    ((get_ss_weights ⟨[], 0⟩ 0 3).1 = computeWeights 0 3 ∧
      get_ss_weights (get_ss_weights ⟨[], 0⟩ 0 3).2 0 3 =
        ((get_ss_weights ⟨[], 0⟩ 0 3).1, (get_ss_weights ⟨[], 0⟩ 0 3).2) ∧
      (get_ss_weights ⟨[], 0⟩ 0 3).2.weight_table.length =
        (get_ss_weights ⟨[], 0⟩ 0 3).2.len ∧
      wtableConsistent (get_ss_weights ⟨[], 0⟩ 0 3).2 0) :=
  ⟨rfl, (by intro m e hm hv; simp at hm),
    C8_weights_memoized_pure ⟨[], 0⟩ 0 3 rfl
      (by intro m e hm hv; simp at hm)⟩

/-! ## Index resolution (`getEdgeIndex` / `getFaceIndex` in
`subsurf_ccg.c`)

Engine handles are modelled as natural numbers; handle equality in the C
code (`v == ccgSubSurf_getEdgeVert0(e)`) is pointer identity, modelled as
equality of handles.  The per-element user data (the flattened start index
stashed in the first `int` of each element's user-data block) is modelled
as functions from handles to `Int`; the theorems hold for every assignment
of user data, in particular for the one written during materialization. -/

structure CCGTopo where
  vertUserData : Nat → Int
  edgeUserData : Nat → Int
  faceUserData : Nat → Int
  edgeVert0 : Nat → Nat
  edgeVert1 : Nat → Nat
  faceNumVerts : Nat → Int
  faceVert : Nat → Int → Nat
  faceEdge : Nat → Int → Nat

/-- `getEdgeIndex`: resolves edge-local position `x` (`0 ≤ x < edgeSize`)
to the global flattened vertex index: the endpoints' own indices at the
ends, the edge's interior block in between. -/
def getEdgeIndex (ss : CCGTopo) (e : Nat) (x edgeSize : Int) : Int :=
  let v0idx := ss.vertUserData (ss.edgeVert0 e)
  let v1idx := ss.vertUserData (ss.edgeVert1 e)
  let edgeBase := ss.edgeUserData e
  if x = 0 then
    v0idx
  else if x = edgeSize - 1 then
    v1idx
  else
    edgeBase + x - 1

/-- `getFaceIndex`: resolves a face-grid sample (corner `S`, grid
coordinates `x`, `y`) to the global flattened vertex index, case-splitting
on the corner vertex, the two boundary edges (with orientation-aware
mirroring against the edge's canonical endpoint 0), the face center, the
two center-adjacent boundary spokes, and the grid interior. -/
def getFaceIndex (ss : CCGTopo) (f : Nat) (S x y edgeSize gridSize : Int) :
    Int :=
  let faceBase := ss.faceUserData f
  let numVerts := ss.faceNumVerts f
  if x = gridSize - 1 ∧ y = gridSize - 1 then
    ss.vertUserData (ss.faceVert f S)
  else if x = gridSize - 1 then
    let v := ss.faceVert f S
    let e := ss.faceEdge f S
    let edgeBase := ss.edgeUserData e
    if v = ss.edgeVert0 e then
      edgeBase + (gridSize - 1 - y) - 1
    else
      edgeBase + (edgeSize - 2 - 1) - ((gridSize - 1 - y) - 1)
  else if y = gridSize - 1 then
    let v := ss.faceVert f S
    let e := ss.faceEdge f ((S + numVerts - 1) % numVerts)
    let edgeBase := ss.edgeUserData e
    if v = ss.edgeVert0 e then
      edgeBase + (gridSize - 1 - x) - 1
    else
      edgeBase + (edgeSize - 2 - 1) - ((gridSize - 1 - x) - 1)
  else if x = 0 ∧ y = 0 then
    faceBase
  else if x = 0 then
    faceBase + 1 + (gridSize - 2) * ((S + numVerts - 1) % numVerts) +
      (y - 1)
  else if y = 0 then
    faceBase + 1 + (gridSize - 2) * S + (x - 1)
  else
    faceBase + 1 + (gridSize - 2) * numVerts +
      S * (gridSize - 2) * (gridSize - 2) + (y - 1) * (gridSize - 2) +
      (x - 1)

/-- The canonical position along edge `ss.faceEdge f S` (measured from the
edge's endpoint 0) of the boundary grid sample `(gridSize - 1, y)` of
corner `S` of face `f`: the sample lies at distance `gridSize - 1 - y`
from the corner vertex, mirrored when the corner vertex is the edge's
endpoint 1. -/
def edgeParamOfFace (ss : CCGTopo) (f : Nat) (S y edgeSize gridSize : Int) :
    Int :=
  if ss.faceVert f S = ss.edgeVert0 (ss.faceEdge f S) then
    gridSize - 1 - y
  else
    edgeSize - 1 - (gridSize - 1 - y)

/-- A boundary sample of a face grid resolves to the same index that
`getEdgeIndex` assigns to its canonical position along the owning edge,
for both traversal directions. -/
theorem getFaceIndex_boundary_eq (ss : CCGTopo) (f : Nat)
    (S y edgeSize gridSize : Int) (hg : 2 ≤ gridSize)
    (hes : edgeSize = 2 * gridSize - 1)
    (hc : ss.faceVert f S = ss.edgeVert0 (ss.faceEdge f S) ∨
      ss.faceVert f S = ss.edgeVert1 (ss.faceEdge f S))
    (hy0 : 0 ≤ y) (hy1 : y ≤ gridSize - 1) :
    getFaceIndex ss f S (gridSize - 1) y edgeSize gridSize =
      getEdgeIndex ss (ss.faceEdge f S)
        (edgeParamOfFace ss f S y edgeSize gridSize) edgeSize := by
  unfold getFaceIndex getEdgeIndex edgeParamOfFace
  simp only []
  by_cases hyv : y = gridSize - 1
  · rw [if_pos (⟨trivial, hyv⟩ : True ∧ y = gridSize - 1)]
    by_cases hv : ss.faceVert f S = ss.edgeVert0 (ss.faceEdge f S)
    · simp only [if_pos hv]
      rw [if_pos (by omega : gridSize - 1 - y = 0)]
      rw [hv]
    · have hv1 : ss.faceVert f S = ss.edgeVert1 (ss.faceEdge f S) :=
        hc.resolve_left hv
      simp only [if_neg hv]
      rw [if_neg (by omega : ¬(edgeSize - 1 - (gridSize - 1 - y) = 0))]
      rw [if_pos (by omega :
        edgeSize - 1 - (gridSize - 1 - y) = edgeSize - 1)]
      rw [hv1]
  · rw [if_neg (fun hand => hyv hand.2 : ¬(True ∧ y = gridSize - 1))]
    rw [if_pos trivial]
    by_cases hv : ss.faceVert f S = ss.edgeVert0 (ss.faceEdge f S)
    · simp only [if_pos hv]
      rw [if_neg (by omega : ¬(gridSize - 1 - y = 0))]
      rw [if_neg (by omega : ¬(gridSize - 1 - y = edgeSize - 1))]
    · simp only [if_neg hv]
      rw [if_neg (by omega : ¬(edgeSize - 1 - (gridSize - 1 - y) = 0))]
      rw [if_neg (by omega :
        ¬(edgeSize - 1 - (gridSize - 1 - y) = edgeSize - 1))]
      omega

/-- **C1.** For every topology whose queried face corner is consistent
(the corner vertex is an endpoint of the corner's edge) and any user-data
assignment: a shared boundary grid sample resolves through `getFaceIndex`
to exactly the index `getEdgeIndex` assigns to that position on the owning
edge, and two adjacent faces sharing the edge resolve the same canonical
edge position to the same global index, regardless of traversal
direction. -/
theorem C1_shared_boundary_agrees (ss : CCGTopo) (f1 f2 : Nat)
    (S1 S2 y1 y2 edgeSize gridSize : Int)
    (hg : 2 ≤ gridSize) (hes : edgeSize = 2 * gridSize - 1)
    (hc1 : ss.faceVert f1 S1 = ss.edgeVert0 (ss.faceEdge f1 S1) ∨
      ss.faceVert f1 S1 = ss.edgeVert1 (ss.faceEdge f1 S1))
    (hc2 : ss.faceVert f2 S2 = ss.edgeVert0 (ss.faceEdge f2 S2) ∨
      ss.faceVert f2 S2 = ss.edgeVert1 (ss.faceEdge f2 S2))
    (hy1l : 0 ≤ y1) (hy1u : y1 ≤ gridSize - 1)
    (hy2l : 0 ≤ y2) (hy2u : y2 ≤ gridSize - 1)
    (hshare : ss.faceEdge f2 S2 = ss.faceEdge f1 S1) :
    getFaceIndex ss f1 S1 (gridSize - 1) y1 edgeSize gridSize =
      getEdgeIndex ss (ss.faceEdge f1 S1)
        (edgeParamOfFace ss f1 S1 y1 edgeSize gridSize) edgeSize ∧
    (edgeParamOfFace ss f2 S2 y2 edgeSize gridSize =
        edgeParamOfFace ss f1 S1 y1 edgeSize gridSize →
      getFaceIndex ss f2 S2 (gridSize - 1) y2 edgeSize gridSize =
        getFaceIndex ss f1 S1 (gridSize - 1) y1 edgeSize gridSize) := by
  have h1 := getFaceIndex_boundary_eq ss f1 S1 y1 edgeSize gridSize hg hes
    hc1 hy1l hy1u
  have h2 := getFaceIndex_boundary_eq ss f2 S2 y2 edgeSize gridSize hg hes
    hc2 hy2l hy2u
  refine ⟨h1, ?_⟩
  intro hparam
  rw [h1, h2, hshare, hparam]

/-- Concrete two-quad topology sharing edge 0, traversed in opposite
directions by the two faces: face 0's corner 0 sits at the edge's endpoint
0 (vertex handle 1), face 1's corner 0 at endpoint 1 (vertex handle 2). -/
def twoQuadTopo : CCGTopo where
  vertUserData := fun v => 100 + (v : Int)
  edgeUserData := fun e => 50 + 10 * (e : Int)
  faceUserData := fun f => 200 + 20 * (f : Int)
  edgeVert0 := fun _ => 1
  edgeVert1 := fun _ => 2
  faceNumVerts := fun _ => 4
  faceVert := fun f S =>
    if f = 0 then (if S = 0 then 1 else 0) else (if S = 0 then 2 else 3)
  faceEdge := fun _ _ => 0

/-- Witness for `C1_shared_boundary_agrees` at a concrete input: the edge
midpoint (canonical position 2 with `gridSize = 3`, `edgeSize = 5`) seen
from both adjacent faces. -/
theorem C1_shared_boundary_agrees_witness :
    ((2 : Int) ≤ 3 ∧ (5 : Int) = 2 * 3 - 1 ∧
      (twoQuadTopo.faceVert 0 0 = twoQuadTopo.edgeVert0 (twoQuadTopo.faceEdge 0 0) ∨
        twoQuadTopo.faceVert 0 0 = twoQuadTopo.edgeVert1 (twoQuadTopo.faceEdge 0 0)) ∧
      (twoQuadTopo.faceVert 1 0 = twoQuadTopo.edgeVert0 (twoQuadTopo.faceEdge 1 0) ∨
        twoQuadTopo.faceVert 1 0 = twoQuadTopo.edgeVert1 (twoQuadTopo.faceEdge 1 0)) ∧
      twoQuadTopo.faceEdge 1 0 = twoQuadTopo.faceEdge 0 0) ∧
    (getFaceIndex twoQuadTopo 0 0 (3 - 1) 0 5 3 =
        getEdgeIndex twoQuadTopo (twoQuadTopo.faceEdge 0 0)
          (edgeParamOfFace twoQuadTopo 0 0 0 5 3) 5 ∧
      (edgeParamOfFace twoQuadTopo 1 0 0 5 3 =
          edgeParamOfFace twoQuadTopo 0 0 0 5 3 →
        getFaceIndex twoQuadTopo 1 0 (3 - 1) 0 5 3 =
          getFaceIndex twoQuadTopo 0 0 (3 - 1) 0 5 3)) :=
  ⟨⟨by decide, by decide, by decide, by decide, by decide⟩,
    C1_shared_boundary_agrees twoQuadTopo 0 1 0 0 0 0 5 3
      (by decide) (by decide) (by decide) (by decide)
      (by decide) (by decide) (by decide) (by decide) (by decide)⟩

/-! ## Materialized vertex layout (`getCCGDerivedMesh` in `subsurf_ccg.c`)

The vertex-emission skeleton of `getCCGDerivedMesh`: the running counter
`vertNum` starts at 0; for each face (in `faceMap` order) the loop records
`faceMap[index].startVert = vertNum`, emits 1 center vertex, then
`numVerts * (gridFaces - 1)` boundary-spoke vertices (`x` from 1 to
`gridFaces - 1`), then `numVerts * (gridFaces - 1)²` interior vertices;
then for each edge it records `edgeMap[index].startVert = vertNum` and
emits `edgeSize - 2` interior vertices; then for each base vertex it
records `vertMap[index].startVert = vertNum` and emits one vertex.
Finally `ccgdm->dm.numVertData = vertNum`.  A face is represented by its
valence (`numVerts`). -/

/-- Number of vertices emitted for one face of the given valence:
1 center + `valence * (gridFaces - 1)` boundary + that many more per
interior row (`gridFaces = gridSize - 1`). -/
def faceVertCount (gridSize valence : Nat) : Nat :=
  1 + valence * (gridSize - 1 - 1) +
    valence * ((gridSize - 1 - 1) * (gridSize - 1 - 1))

/-- The face-emission loop: returns each face's recorded `startVert` (in
iteration order) and the final `vertNum`. -/
def matFaceStarts (gridSize : Nat) : List Nat → Nat → List Nat × Nat
  | [], vertNum => ([], vertNum)
  | valence :: rest, vertNum =>
    let r := matFaceStarts gridSize rest
      (vertNum + faceVertCount gridSize valence)
    (vertNum :: r.1, r.2)

/-- The edge-emission loop: each of the `numEdges` edges records its
`startVert` and emits `edgeSize - 2` interior vertices. -/
def matEdgeStarts (edgeSize : Nat) : Nat → Nat → List Nat × Nat
  | 0, vertNum => ([], vertNum)
  | n + 1, vertNum =>
    let r := matEdgeStarts edgeSize n (vertNum + (edgeSize - 2))
    (vertNum :: r.1, r.2)

/-- The base-vertex emission loop: one vertex each. -/
def matVertStarts : Nat → Nat → List Nat × Nat
  | 0, vertNum => ([], vertNum)
  | n + 1, vertNum =>
    let r := matVertStarts n (vertNum + 1)
    (vertNum :: r.1, r.2)

/-- The vertex layout produced by `getCCGDerivedMesh`: per-face, per-edge
and per-vertex `startVert` tables and the final total `numVertData`. -/
def materializeVertLayout (gridSize edgeSize : Nat) (valences : List Nat)
    (numEdges numVerts : Nat) : (List Nat × List Nat × List Nat) × Nat :=
  let f := matFaceStarts gridSize valences 0
  let e := matEdgeStarts edgeSize numEdges f.2
  let v := matVertStarts numVerts e.2
  ((f.1, e.1, v.1), v.2)

/-- Checks that a list of `(start, count)` ranges tiles `[a, …)`
contiguously, returning the end of the tiled region. -/
def rangesEnd : Nat → List (Nat × Nat) → Option Nat
  | a, [] => some a
  | a, (s, c) :: rest => if s = a then rangesEnd (s + c) rest else none

theorem matFaceStarts_snd (gridSize : Nat) :
    ∀ (valences : List Nat) (vertNum : Nat),
      (matFaceStarts gridSize valences vertNum).2 =
        vertNum + (valences.map (faceVertCount gridSize)).sum := by
  intro valences
  induction valences with
  | nil => intro vertNum; simp [matFaceStarts]
  | cons v rest ih =>
    intro vertNum
    simp only [matFaceStarts, List.map_cons, List.sum_cons]
    rw [ih]
    omega

theorem matEdgeStarts_snd (edgeSize : Nat) :
    ∀ (n vertNum : Nat),
      (matEdgeStarts edgeSize n vertNum).2 = vertNum + n * (edgeSize - 2) := by
  intro n
  induction n with
  | zero => intro vertNum; simp [matEdgeStarts]
  | succ m ih =>
    intro vertNum
    simp only [matEdgeStarts]
    rw [ih]
    ring

theorem matVertStarts_snd :
    ∀ (n vertNum : Nat), (matVertStarts n vertNum).2 = vertNum + n := by
  intro n
  induction n with
  | zero => intro vertNum; simp [matVertStarts]
  | succ m ih =>
    intro vertNum
    simp only [matVertStarts]
    rw [ih]
    omega

theorem rangesEnd_append :
    ∀ (l1 l2 : List (Nat × Nat)) (a : Nat),
      rangesEnd a (l1 ++ l2) =
        match rangesEnd a l1 with
        | some m => rangesEnd m l2
        | none => none := by
  intro l1
  induction l1 with
  | nil => intro l2 a; rfl
  | cons p rest ih =>
    intro l2 a
    obtain ⟨s, c⟩ := p
    simp only [List.cons_append, rangesEnd, List.append_eq]
    by_cases hs : s = a
    · rw [if_pos hs, if_pos hs, ih]
    · rw [if_neg hs, if_neg hs]

theorem matFaceStarts_rangesEnd (gridSize : Nat) :
    ∀ (valences : List Nat) (vertNum : Nat),
      rangesEnd vertNum
          ((matFaceStarts gridSize valences vertNum).1.zip
            (valences.map (faceVertCount gridSize))) =
        some (matFaceStarts gridSize valences vertNum).2 := by
  intro valences
  induction valences with
  | nil => intro vertNum; rfl
  | cons v rest ih =>
    intro vertNum
    simp only [matFaceStarts, List.map_cons, List.zip_cons_cons, rangesEnd]
    rw [if_pos trivial]
    exact ih (vertNum + faceVertCount gridSize v)

theorem matEdgeStarts_rangesEnd (edgeSize : Nat) :
    ∀ (n vertNum : Nat),
      rangesEnd vertNum
          ((matEdgeStarts edgeSize n vertNum).1.map
            (fun s => (s, edgeSize - 2))) =
        some (matEdgeStarts edgeSize n vertNum).2 := by
  intro n
  induction n with
  | zero => intro vertNum; rfl
  | succ m ih =>
    intro vertNum
    simp only [matEdgeStarts, List.map_cons, rangesEnd]
    rw [if_pos trivial]
    exact ih (vertNum + (edgeSize - 2))

theorem matVertStarts_rangesEnd :
    ∀ (n vertNum : Nat),
      rangesEnd vertNum
          ((matVertStarts n vertNum).1.map (fun s => (s, 1))) =
        some (matVertStarts n vertNum).2 := by
  intro n
  induction n with
  | zero => intro vertNum; rfl
  | succ m ih =>
    intro vertNum
    simp only [matVertStarts, List.map_cons, rangesEnd]
    rw [if_pos trivial]
    exact ih (vertNum + 1)

/-- **C2.** The materialized mesh's total vertex count equals the sum over
faces of `1 + valence*(gridSize-2) + valence*(gridSize-2)²` plus
`edgeCount*(edgeSize-2)` plus `baseVertCount`, and the per-face, per-edge
and per-vertex `startVert` offsets recorded in the index maps partition
`[0, totalVerts)` contiguously in that order, with no gaps or overlaps. -/
theorem C2_total_verts_and_partition (gridSize edgeSize : Nat)
    (valences : List Nat) (numEdges numVerts : Nat) :
    (materializeVertLayout gridSize edgeSize valences numEdges
        numVerts).2 =
      (valences.map (fun v =>
        1 + v * (gridSize - 2) + v * (gridSize - 2) ^ 2)).sum +
        numEdges * (edgeSize - 2) + numVerts ∧
    rangesEnd 0
        ((((materializeVertLayout gridSize edgeSize valences numEdges
              numVerts).1.1.zip (valences.map (faceVertCount gridSize))) ++
          ((materializeVertLayout gridSize edgeSize valences numEdges
              numVerts).1.2.1.map (fun s => (s, edgeSize - 2)))) ++
          ((materializeVertLayout gridSize edgeSize valences numEdges
              numVerts).1.2.2.map (fun s => (s, 1)))) =
      some (materializeVertLayout gridSize edgeSize valences numEdges
        numVerts).2 := by
  have hfv : faceVertCount gridSize = fun v =>
      1 + v * (gridSize - 2) + v * (gridSize - 2) ^ 2 := by
    funext v
    unfold faceVertCount
    rw [Nat.sub_sub, pow_two]
  constructor
  · unfold materializeVertLayout
    simp only []
    rw [matVertStarts_snd, matEdgeStarts_snd, matFaceStarts_snd, hfv]
    ring
  · unfold materializeVertLayout
    simp only []
    rw [rangesEnd_append, rangesEnd_append]
    rw [matFaceStarts_rangesEnd]
    simp only []
    rw [matEdgeStarts_rangesEnd]
    simp only []
    rw [matVertStarts_rangesEnd]

/-! ## Original-index layers (`getCCGDerivedMesh` in `subsurf_ccg.c`)

The CD_ORIGINDEX emission of `getCCGDerivedMesh`: per-face vertex emission
writes `*vertOrigIndex = ORIGINDEX_NONE` for the center, boundary-spoke and
interior vertices; per-face edges write `edgeOrigIndex[...] =
ORIGINDEX_NONE`; each generated quad writes `*polyOrigIndex =
base_polyOrigIndex ? base_polyOrigIndex[origIndex] : origIndex` (the
originating base polygon's original index, modelled as the per-face `Int`
input); per-edge vertex emission writes `ORIGINDEX_NONE` and per-edge
sub-edges write `edgeOrigIndex[...] = mapIndex` (the edge's user-data map
index, stashed by `ss_sync_from_derivedmesh` as the base edge's original
index); base vertices write their own map index. -/

/-- `ORIGINDEX_NONE`, the "no original index" sentinel
(`BKE_customdata.h`, value -1; the header is outside this repository's
sources). -/
def ORIGINDEX_NONE : Int := -1

/-- `numFinalEdges` for one face:
`numVerts * (gridSideEdges + gridInternalEdges)` with
`gridSideEdges = gridSize - 1` and
`gridInternalEdges = (gridSideEdges - 1) * gridSideEdges * 2`. -/
def faceEdgeCount (gridSize valence : Nat) : Nat :=
  valence * ((gridSize - 1) + ((gridSize - 1) - 1) * (gridSize - 1) * 2)

/-- Number of quads generated for one face: one per grid cell of each
corner grid (`gridFaces = gridSize - 1`). -/
def facePolyCount (gridSize valence : Nat) : Nat :=
  valence * ((gridSize - 1) * (gridSize - 1))

/-- Vertex CD_ORIGINDEX entries written by the face loop (all sentinel). -/
def vertOrigOfFaces (gridSize : Nat) : List Nat → List Int
  | [] => []
  | valence :: rest =>
    List.replicate (faceVertCount gridSize valence) ORIGINDEX_NONE ++
      vertOrigOfFaces gridSize rest

/-- Edge CD_ORIGINDEX entries written by the face loop (all sentinel). -/
def edgeOrigOfFaces (gridSize : Nat) : List Nat → List Int
  | [] => []
  | valence :: rest =>
    List.replicate (faceEdgeCount gridSize valence) ORIGINDEX_NONE ++
      edgeOrigOfFaces gridSize rest

/-- Poly CD_ORIGINDEX entries written by the face loop: every quad of a
face carries that face's base polygon original index. -/
def polyOrigOfFaces (gridSize : Nat) : List (Nat × Int) → List Int
  | [] => []
  | (valence, po) :: rest =>
    List.replicate (facePolyCount gridSize valence) po ++
      polyOrigOfFaces gridSize rest

/-- Vertex CD_ORIGINDEX entries written by the edge loop
(`edgeSize - 2` sentinels per edge). -/
def vertOrigOfEdges (edgeSize : Nat) : List Int → List Int
  | [] => []
  | _ :: rest =>
    List.replicate (edgeSize - 2) ORIGINDEX_NONE ++
      vertOrigOfEdges edgeSize rest

/-- Edge CD_ORIGINDEX entries written by the edge loop: each of the
`edgeSize - 1` sub-edges of a base edge carries that edge's map index. -/
def edgeOrigOfEdges (edgeSize : Nat) : List Int → List Int
  | [] => []
  | m :: rest =>
    List.replicate (edgeSize - 1) m ++ edgeOrigOfEdges edgeSize rest

/-- The complete vertex CD_ORIGINDEX layer: face-owned, then edge-owned,
then base vertices (the latter carrying their map indices). -/
def vertOrigLayer (gridSize edgeSize : Nat) (faces : List Nat)
    (edges verts : List Int) : List Int :=
  vertOrigOfFaces gridSize faces ++ vertOrigOfEdges edgeSize edges ++ verts

/-- The complete edge CD_ORIGINDEX layer: face-owned (sentinel), then
edge-owned sub-edges (base edge map indices). -/
def edgeOrigLayer (gridSize edgeSize : Nat) (faces : List Nat)
    (edges : List Int) : List Int :=
  edgeOrigOfFaces gridSize faces ++ edgeOrigOfEdges edgeSize edges

/-- The complete poly CD_ORIGINDEX layer. -/
def polyOrigLayer (gridSize : Nat) (faces : List (Nat × Int)) : List Int :=
  polyOrigOfFaces gridSize faces

theorem vertOrigOfFaces_eq (gridSize : Nat) :
    ∀ faces : List Nat,
      vertOrigOfFaces gridSize faces =
        List.replicate ((faces.map (faceVertCount gridSize)).sum)
          ORIGINDEX_NONE := by
  intro faces
  induction faces with
  | nil => rfl
  | cons v rest ih =>
    simp only [vertOrigOfFaces, List.map_cons, List.sum_cons, ih,
      List.replicate_add]

theorem edgeOrigOfFaces_eq (gridSize : Nat) :
    ∀ faces : List Nat,
      edgeOrigOfFaces gridSize faces =
        List.replicate ((faces.map (faceEdgeCount gridSize)).sum)
          ORIGINDEX_NONE := by
  intro faces
  induction faces with
  | nil => rfl
  | cons v rest ih =>
    simp only [edgeOrigOfFaces, List.map_cons, List.sum_cons, ih,
      List.replicate_add]

theorem vertOrigOfEdges_eq (edgeSize : Nat) :
    ∀ edges : List Int,
      vertOrigOfEdges edgeSize edges =
        List.replicate (edges.length * (edgeSize - 2)) ORIGINDEX_NONE := by
  intro edges
  induction edges with
  | nil => simp [vertOrigOfEdges]
  | cons m rest ih =>
    simp only [vertOrigOfEdges, ih, List.length_cons]
    rw [Nat.succ_mul, Nat.add_comm (rest.length * (edgeSize - 2))]
    rw [List.replicate_add]

theorem edgeOrigOfEdges_getElem (edgeSize : Nat) :
    ∀ (edges : List Int) (i : Nat) (m : Int), edges[i]? = some m →
      ∀ r, r < edgeSize - 1 →
        (edgeOrigOfEdges edgeSize edges)[i * (edgeSize - 1) + r]? =
          some m := by
  intro edges
  induction edges with
  | nil =>
    intro i m hm
    simp at hm
  | cons m0 rest ih =>
    intro i m hm r hr
    cases i with
    | zero =>
      rw [List.getElem?_cons_zero] at hm
      injection hm with hm
      subst hm
      simp only [edgeOrigOfEdges, Nat.zero_mul, Nat.zero_add]
      rw [List.getElem?_append]
      rw [if_pos (by rw [List.length_replicate]; exact hr)]
      rw [List.getElem?_replicate, if_pos hr]
    | succ j =>
      rw [List.getElem?_cons_succ] at hm
      simp only [edgeOrigOfEdges]
      rw [List.getElem?_append]
      rw [if_neg (by
        rw [List.length_replicate]
        have hle : edgeSize - 1 ≤ (j + 1) * (edgeSize - 1) :=
          Nat.le_mul_of_pos_left _ (by omega)
        omega)]
      rw [List.length_replicate]
      have he : (j + 1) * (edgeSize - 1) + r - (edgeSize - 1) =
          j * (edgeSize - 1) + r := by
        rw [Nat.succ_mul]
        omega
      rw [he]
      exact ih j m hm r hr

theorem polyOrigOfFaces_getElem (gridSize : Nat) :
    ∀ (faces : List (Nat × Int)) (i : Nat) (p : Nat × Int),
      faces[i]? = some p →
      ∀ r, r < facePolyCount gridSize p.1 →
        (polyOrigOfFaces gridSize faces)[
          (((faces.take i).map (fun q => facePolyCount gridSize q.1)).sum)
            + r]? = some p.2 := by
  intro faces
  induction faces with
  | nil =>
    intro i p hp
    simp at hp
  | cons p0 rest ih =>
    intro i p hp r hr
    obtain ⟨v0, o0⟩ := p0
    cases i with
    | zero =>
      rw [List.getElem?_cons_zero] at hp
      injection hp with hp
      subst hp
      simp only [polyOrigOfFaces, List.take_zero, List.map_nil,
        List.sum_nil, Nat.zero_add]
      rw [List.getElem?_append]
      rw [if_pos (by rw [List.length_replicate]; exact hr)]
      rw [List.getElem?_replicate, if_pos hr]
    | succ j =>
      rw [List.getElem?_cons_succ] at hp
      simp only [polyOrigOfFaces, List.take_succ_cons, List.map_cons,
        List.sum_cons]
      rw [List.getElem?_append]
      rw [if_neg (by rw [List.length_replicate]; omega)]
      rw [List.length_replicate]
      have he : facePolyCount gridSize v0 +
          ((rest.take j).map (fun q => facePolyCount gridSize q.1)).sum +
          r - facePolyCount gridSize v0 =
          ((rest.take j).map (fun q => facePolyCount gridSize q.1)).sum +
            r := by
        omega
      rw [he]
      exact ih j p hp r hr

/-- Amended original-index contract of the materialized layers: all
face-owned and edge-owned vertices and all face-interior edges carry the
sentinel, base vertices carry their map index, while each sub-edge of a
base edge inherits that edge's map index and each generated quad inherits
its base polygon's original index (so subdivided edges and generated
polygons are NOT sentinel-marked). -/
def origindexLayersSpec (gridSize edgeSize : Nat) (faces : List Nat)
    (polyFaces : List (Nat × Int)) (edges verts : List Int) : Prop :=
  vertOrigLayer gridSize edgeSize faces edges verts =
      List.replicate ((faces.map (faceVertCount gridSize)).sum +
        edges.length * (edgeSize - 2)) ORIGINDEX_NONE ++ verts ∧
  edgeOrigLayer gridSize edgeSize faces edges =
      List.replicate ((faces.map (faceEdgeCount gridSize)).sum)
        ORIGINDEX_NONE ++ edgeOrigOfEdges edgeSize edges ∧
  (∀ i m, edges[i]? = some m → ∀ r, r < edgeSize - 1 →
    (edgeOrigLayer gridSize edgeSize faces edges)[
      (faces.map (faceEdgeCount gridSize)).sum +
        (i * (edgeSize - 1) + r)]? = some m) ∧
  (∀ i p, polyFaces[i]? = some p → ∀ r, r < facePolyCount gridSize p.1 →
    (polyOrigLayer gridSize polyFaces)[
      (((polyFaces.take i).map
        (fun q => facePolyCount gridSize q.1)).sum) + r]? = some p.2)

/-- **C4 (amended).** The original-index layers mark exactly the face-owned
and edge-owned vertices and the face-interior edges as synthetic
(sentinel); base vertices carry their original index; but subdivided
boundary edges inherit the base edge's map index and generated polygons
inherit the base polygon's original index, rather than the sentinel. -/
theorem C4_origindex_layers (gridSize edgeSize : Nat) (faces : List Nat)
    (polyFaces : List (Nat × Int)) (edges verts : List Int) :
    origindexLayersSpec gridSize edgeSize faces polyFaces edges verts := by
  refine ⟨?_, ?_, ?_, ?_⟩
  · unfold vertOrigLayer
    rw [vertOrigOfFaces_eq, vertOrigOfEdges_eq, List.replicate_add,
      List.append_assoc]
  · unfold edgeOrigLayer
    rw [edgeOrigOfFaces_eq]
  · intro i m hm r hr
    unfold edgeOrigLayer
    rw [List.getElem?_append]
    have hlf : (edgeOrigOfFaces gridSize faces).length =
        (faces.map (faceEdgeCount gridSize)).sum := by
      rw [edgeOrigOfFaces_eq, List.length_replicate]
    rw [if_neg (by rw [hlf]; omega)]
    rw [hlf]
    have he : (faces.map (faceEdgeCount gridSize)).sum +
        (i * (edgeSize - 1) + r) -
        (faces.map (faceEdgeCount gridSize)).sum =
        i * (edgeSize - 1) + r := by omega
    rw [he]
    exact edgeOrigOfEdges_getElem edgeSize edges i m hm r hr
  · intro i p hp r hr
    unfold polyOrigLayer
    exact polyOrigOfFaces_getElem gridSize polyFaces i p hp r hr

/-- **C4 (counterexample to the claim as stated).** With one quad face
(base polygon original index 7), one base edge with map index 0, grid size
2 and edge size 3: the first edge-owned sub-edge (layer position 4, after
the 4 sentinel-marked face-interior edges) carries the base edge's index 0,
and the first generated polygon carries 7 — neither is the sentinel, so
subdivision-generated sub-edges and polygons do not get the
"no original index" marker as claimed. -/
theorem C4_counterexample_inherited_indices :
    (edgeOrigLayer 2 3 [4] [0])[4]? = some 0 ∧
    some (0 : Int) ≠ some ORIGINDEX_NONE ∧
    (polyOrigLayer 2 [(4, 7)])[0]? = some 7 ∧
    some (7 : Int) ≠ some ORIGINDEX_NONE := by
  refine ⟨by decide, by decide, by decide, by decide⟩

/-- Witness for `C4_origindex_layers` at a concrete input. -/
theorem C4_origindex_layers_witness :
    origindexLayersSpec 2 3 [4] [(4, 7)] [0] [5, 9] :=
  C4_origindex_layers 2 3 [4] [(4, 7)] [0] [5, 9]

/-! ## UV resync seam rule (`ss_sync_from_uv` in `subsurf_ccg.c`)

The vertex-creation loop of `ss_sync_from_uv`: vertices whose UV vertex map
is empty are skipped; otherwise the loop
`for (v = map(i)->next; v; v = v->next) if (v->separate) break;`
scans the UV copies after the first for a split (`separate`) one, and
`seam = (v != NULL) || ((mvert + i)->flag & ME_VERT_MERGED)` — each
separate UV copy is then synced with that seam flag.  The
`ME_VERT_MERGED` bit test lives in a DNA header outside these sources and
is modelled as the boolean `merged`. -/

structure UvMapVert where
  separate : Bool
  poly : Nat
  tfindex : Nat
deriving DecidableEq

/-- The break-on-separate scan loop
(`for (v = ...; v; v = v->next) if (v->separate) break`). -/
def findSeparate : List UvMapVert → Option UvMapVert
  | [] => none
  | v :: rest => if v.separate then some v else findSeparate rest

/-- The seam flag computed for one base vertex:
`(v != NULL) || (flag & ME_VERT_MERGED)` where the scan starts at the
second element of the vertex's UV map chain. -/
def ss_sync_vert_seam (vlist : List UvMapVert) (merged : Bool) : Bool :=
  (findSeparate vlist.tail).isSome || merged

/-- The seam flags passed to `ccgSubSurf_syncVert` for one base vertex:
skipped entirely when the UV map chain is empty, otherwise one call per
separate UV copy, all with the same seam flag. -/
def syncVertSeams (vlist : List UvMapVert) (merged : Bool) : List Bool :=
  if vlist.isEmpty then []
  else (vlist.filter (fun v => v.separate)).map
    (fun _ => ss_sync_vert_seam vlist merged)

theorem findSeparate_isSome :
    ∀ l : List UvMapVert,
      (findSeparate l).isSome = true ↔ ∃ v ∈ l, v.separate = true := by
  intro l
  induction l with
  | nil => simp [findSeparate]
  | cons v rest ih =>
    simp only [findSeparate]
    by_cases hv : v.separate
    · rw [if_pos hv]
      simp [hv]
    · rw [if_neg hv]
      rw [ih]
      constructor
      · rintro ⟨w, hw, hsep⟩
        exact ⟨w, List.mem_cons_of_mem v hw, hsep⟩
      · rintro ⟨w, hw, hsep⟩
        rcases List.mem_cons.mp hw with rfl | hmem
        · exact absurd hsep (by simpa using hv)
        · exact ⟨w, hmem, hsep⟩

/-- **C7.** A base vertex is synced into the UV subdivision as a seam
vertex exactly when its UV vertex map contains a separate (split) UV copy
beyond the first one, or the vertex carries the merged-geometry flag
(`ME_VERT_MERGED`); every sync call for the vertex passes that same seam
flag.  In particular, a mirrored/welded (merged) vertex is marked as a UV
seam even when no split UV copy exists. -/
theorem C7_uv_seam_rule (vlist : List UvMapVert) (merged : Bool) :
    (ss_sync_vert_seam vlist merged = true ↔
      (∃ v ∈ vlist.tail, v.separate = true) ∨ merged = true) ∧
    (∀ s ∈ syncVertSeams vlist merged,
      s = ss_sync_vert_seam vlist merged) ∧
    (merged = true → ss_sync_vert_seam vlist merged = true) := by
  refine ⟨?_, ?_, ?_⟩
  · unfold ss_sync_vert_seam
    rw [Bool.or_eq_true]
    rw [findSeparate_isSome]
  · intro s hs
    unfold syncVertSeams at hs
    by_cases he : vlist.isEmpty
    · rw [if_pos he] at hs
      simp at hs
    · rw [if_neg he] at hs
      obtain ⟨v, _, hv⟩ := List.mem_map.mp hs
      exact hv.symm
  · intro hm
    unfold ss_sync_vert_seam
    rw [hm, Bool.or_true]

/-- Witness for `C7_uv_seam_rule` at a concrete input: a merged vertex
with a single (unsplit) UV copy is still marked as a seam. -/
theorem C7_uv_seam_rule_witness :
    (ss_sync_vert_seam [⟨true, 0, 0⟩] true = true ↔
      (∃ v ∈ ([⟨true, 0, 0⟩] : List UvMapVert).tail, v.separate = true) ∨
        true = true) ∧
    (∀ s ∈ syncVertSeams [⟨true, 0, 0⟩] true,
      s = ss_sync_vert_seam [⟨true, 0, 0⟩] true) ∧
    (true = true → ss_sync_vert_seam [⟨true, 0, 0⟩] true = true) :=
  C7_uv_seam_rule [⟨true, 0, 0⟩] true

/-! ## Lazy shared caches and the read-write-lock discipline
(`ccgDM_copyFinalLoopArray` and `ccgDM_get_vert_data_layer` in
`subsurf_ccg.c`)

Each routine's lazy-construction path is modelled as a small program over a
shared state (a read-write lock, plus the cache flag `built` and a
construction counter `buildCount`), executed by two threads under an
arbitrary interleaving (a schedule of thread choices; a step of a thread
blocked on a lock, or already finished, changes nothing).

`ccgDM_copyFinalLoopArray` (the `ehash` edge-adjacency cache):
  `readFlag`:     `if (!ccgdm->ehash)` — plain read of the cache pointer;
  `branch`:       skip construction when it was seen non-null;
  `lockW`:        `BLI_rw_mutex_lock(..., THREAD_LOCK_WRITE)`;
  `recheckBuild`: `if (!ccgdm->ehash) { build }` — the double-check and
                  the build, atomic here because the thread holds the
                  exclusive write lock (the only other shared access, the
                  plain `readFlag` read, cannot distinguish the
                  intermediate point: `built` stays false until the build);
  `unlockW`:      `BLI_rw_mutex_unlock`.

`ccgDM_get_vert_data_layer` (the on-demand CD_ORIGINDEX layer):
  `lockR`/`readFlag`/`unlockR`: `BLI_rw_mutex_lock(..., THREAD_LOCK_READ);
                  origindex = DM_get_vert_data_layer(...); unlock`;
  `branch`:       `if (origindex) return origindex;`
  `lockW`:        write lock — note: NO re-check follows;
  `buildUnlock`:  `DM_add_vert_layer(...); ...; unlock` — builds
                  unconditionally (atomic under the exclusive lock). -/

structure LockState where
  readers : Nat
  writer : Bool
deriving DecidableEq

structure CacheState where
  built : Bool
  buildCount : Nat
deriving DecidableEq

structure ThreadSt (π : Type) where
  pc : π
  observed : Bool
deriving DecidableEq

structure CacheSys (π : Type) where
  lock : LockState
  cache : CacheState
  t1 : ThreadSt π
  t2 : ThreadSt π
deriving DecidableEq

inductive EhashPc where
  | readFlag | branch | lockW | recheckBuild | unlockW | done
deriving DecidableEq

inductive OrigPc where
  | lockR | readFlag | unlockR | branch | lockW | buildUnlock | done
deriving DecidableEq

/-- One atomic step of the `ehash`-cache routine, `none` when blocked or
finished. -/
def ehashThreadStep (lock : LockState) (cache : CacheState)
    (t : ThreadSt EhashPc) :
    Option (LockState × CacheState × ThreadSt EhashPc) :=
  match t.pc with
  | EhashPc.readFlag =>
    some (lock, cache, ⟨EhashPc.branch, cache.built⟩)
  | EhashPc.branch =>
    some (lock, cache,
      ⟨if t.observed then EhashPc.done else EhashPc.lockW, t.observed⟩)
  | EhashPc.lockW =>
    if lock.writer ∨ lock.readers ≠ 0 then none
    else some (⟨lock.readers, true⟩, cache, ⟨EhashPc.recheckBuild, t.observed⟩)
  | EhashPc.recheckBuild =>
    if cache.built then
      some (lock, cache, ⟨EhashPc.unlockW, t.observed⟩)
    else
      some (lock, ⟨true, cache.buildCount + 1⟩, ⟨EhashPc.unlockW, t.observed⟩)
  | EhashPc.unlockW =>
    some (⟨lock.readers, false⟩, cache, ⟨EhashPc.done, t.observed⟩)
  | EhashPc.done => none

/-- One atomic step of the CD_ORIGINDEX-layer routine, `none` when blocked
or finished. -/
def origThreadStep (lock : LockState) (cache : CacheState)
    (t : ThreadSt OrigPc) :
    Option (LockState × CacheState × ThreadSt OrigPc) :=
  match t.pc with
  | OrigPc.lockR =>
    if lock.writer then none
    else some (⟨lock.readers + 1, lock.writer⟩, cache,
      ⟨OrigPc.readFlag, t.observed⟩)
  | OrigPc.readFlag =>
    some (lock, cache, ⟨OrigPc.unlockR, cache.built⟩)
  | OrigPc.unlockR =>
    some (⟨lock.readers - 1, lock.writer⟩, cache, ⟨OrigPc.branch, t.observed⟩)
  | OrigPc.branch =>
    some (lock, cache,
      ⟨if t.observed then OrigPc.done else OrigPc.lockW, t.observed⟩)
  | OrigPc.lockW =>
    if lock.writer ∨ lock.readers ≠ 0 then none
    else some (⟨lock.readers, true⟩, cache, ⟨OrigPc.buildUnlock, t.observed⟩)
  | OrigPc.buildUnlock =>
    some (⟨lock.readers, false⟩, ⟨true, cache.buildCount + 1⟩,
      ⟨OrigPc.done, t.observed⟩)
  | OrigPc.done => none

/-- Advance the chosen thread by one step (no effect when it is blocked or
finished). -/
def sysStep {π : Type}
    (stepf : LockState → CacheState → ThreadSt π →
      Option (LockState × CacheState × ThreadSt π))
    (s : CacheSys π) (who : Bool) : CacheSys π :=
  if who then
    match stepf s.lock s.cache s.t1 with
    | none => s
    | some (l, c, t) => ⟨l, c, t, s.t2⟩
  else
    match stepf s.lock s.cache s.t2 with
    | none => s
    | some (l, c, t) => ⟨l, c, s.t1, t⟩

/-- Run a schedule (list of thread choices). -/
def runSched {π : Type}
    (stepf : LockState → CacheState → ThreadSt π →
      Option (LockState × CacheState × ThreadSt π)) :
    CacheSys π → List Bool → CacheSys π
  | s, [] => s
  | s, w :: rest => runSched stepf (sysStep stepf s w) rest

/-- Initial state: lock free, cache absent, both threads at the start of
the routine. -/
def ehashInit : CacheSys EhashPc :=
  ⟨⟨0, false⟩, ⟨false, 0⟩, ⟨EhashPc.readFlag, false⟩,
    ⟨EhashPc.readFlag, false⟩⟩

def origInit : CacheSys OrigPc :=
  ⟨⟨0, false⟩, ⟨false, 0⟩, ⟨OrigPc.lockR, false⟩, ⟨OrigPc.lockR, false⟩⟩

/-- Build counter bookkeeping: the cache is built exactly as many times as
the flag records. -/
def cacheInv {π : Type} (s : CacheSys π) : Prop :=
  s.cache.buildCount = (if s.cache.built then 1 else 0)

theorem ehashThreadStep_cache_change (lock : LockState) (cache : CacheState)
    (t : ThreadSt EhashPc) (l : LockState) (c : CacheState)
    (tt : ThreadSt EhashPc)
    (hstep : ehashThreadStep lock cache t = some (l, c, tt)) :
    c = cache ∨ (cache.built = false ∧ c = ⟨true, cache.buildCount + 1⟩) := by
  cases hpc : t.pc <;> simp only [ehashThreadStep, hpc] at hstep
  · simp only [Option.some.injEq, Prod.mk.injEq] at hstep
    exact Or.inl hstep.2.1.symm
  · simp only [Option.some.injEq, Prod.mk.injEq] at hstep
    exact Or.inl hstep.2.1.symm
  · split_ifs at hstep with hw
    simp only [Option.some.injEq, Prod.mk.injEq] at hstep
    exact Or.inl hstep.2.1.symm
  · split_ifs at hstep with hb
    · simp only [Option.some.injEq, Prod.mk.injEq] at hstep
      exact Or.inl hstep.2.1.symm
    · simp only [Option.some.injEq, Prod.mk.injEq] at hstep
      refine Or.inr ⟨by simpa using hb, hstep.2.1.symm⟩
  · simp only [Option.some.injEq, Prod.mk.injEq] at hstep
    exact Or.inl hstep.2.1.symm
  · cases hstep

theorem ehash_sysStep_inv (s : CacheSys EhashPc) (who : Bool)
    (h : cacheInv s) : cacheInv (sysStep ehashThreadStep s who) := by
  unfold sysStep
  cases who
  · simp only [Bool.false_eq_true, if_false]
    rcases hstep : ehashThreadStep s.lock s.cache s.t2 with _ | ⟨l, c, tt⟩
    · exact h
    · rcases ehashThreadStep_cache_change _ _ _ _ _ _ hstep with hc | ⟨hb, hc⟩
      · unfold cacheInv at h ⊢
        rw [hc]
        exact h
      · unfold cacheInv at h ⊢
        rw [hc]
        rw [hb] at h
        simp only [Bool.false_eq_true, if_false] at h
        simp [h]
  · simp only [if_true]
    rcases hstep : ehashThreadStep s.lock s.cache s.t1 with _ | ⟨l, c, tt⟩
    · exact h
    · rcases ehashThreadStep_cache_change _ _ _ _ _ _ hstep with hc | ⟨hb, hc⟩
      · unfold cacheInv at h ⊢
        rw [hc]
        exact h
      · unfold cacheInv at h ⊢
        rw [hc]
        rw [hb] at h
        simp only [Bool.false_eq_true, if_false] at h
        simp [h]

theorem ehash_runSched_inv :
    ∀ (sched : List Bool) (s : CacheSys EhashPc), cacheInv s →
      cacheInv (runSched ehashThreadStep s sched) := by
  intro sched
  induction sched with
  | nil => intro s h; exact h
  | cons w rest ih =>
    intro s h
    exact ih _ (ehash_sysStep_inv s w h)

/-- **C9 (amended).** The edge-adjacency (`ehash`) cache follows the
double-checked write-lock discipline: under every interleaving of two
concurrent first accesses it is constructed at most once.  The on-demand
CD_ORIGINDEX layer cache does NOT re-check after acquiring the write lock
(it checks only under the preceding read lock), and an interleaving of two
concurrent first accesses constructs it twice. -/
theorem C9_lazy_cache_disciplines :
    (∀ sched : List Bool,
      (runSched ehashThreadStep ehashInit sched).cache.buildCount ≤ 1) ∧
    (runSched origThreadStep origInit
        [true, true, true, false, false, false,
         true, true, true, false, false, false]).cache.buildCount = 2 := by
  constructor
  · intro sched
    have h := ehash_runSched_inv sched ehashInit (by rfl)
    unfold cacheInv at h
    rw [h]
    split <;> omega
  · rfl

/-- **C9 (counterexample to the claim as stated).** The claim asserts that
both lazily built caches follow the double-checked discipline, so that
concurrent first accesses never construct a cache twice.  Under the
explicit interleaving in which both threads pass the read-locked existence
check of `ccgDM_get_vert_data_layer` before either takes the write lock,
the CD_ORIGINDEX layer is constructed twice. -/
theorem C9_counterexample_origindex_double_build :
    (runSched origThreadStep origInit
        [true, true, true, false, false, false,
         true, true, true, false, false, false]).cache.buildCount = 2 ∧
    ¬((runSched origThreadStep origInit
        [true, true, true, false, false, false,
         true, true, true, false, false, false]).cache.buildCount ≤ 1) := by
  refine ⟨rfl, by decide⟩
